import Mathlib

/-!
Shallow embedding of the danmaku-renderer core (layout engine, chunk provider,
worker triple buffer, in-memory source, Bilibili XML attribute parsing),
translated from the Rust sources, together with proofs checking the
natural-language specification against it.

Machine integers are modelled as `ℕ`; `u32` arithmetic that can overflow or
underflow is modelled with explicit checks returning `Option` (`none` models a
Rust panic, i.e. overflow-checked semantics).  `Duration` values are modelled
in whole milliseconds, the unit every code path under consideration uses.
-/

namespace DanmakuRenderer

/-- Checked `u32` addition: `a + b`, `none` on overflow (a Rust panic). -/
def checkedAddU32 (a b : ℕ) : Option ℕ :=
  if a + b < 2 ^ 32 then some (a + b) else none

/-- Checked `u32` subtraction: `a - b`, `none` on underflow (a Rust panic). -/
def checkedSubU32 (a b : ℕ) : Option ℕ :=
  if b ≤ a then some (a - b) else none

/-- Checked `u32` multiplication: `a * b`, `none` on overflow (a Rust panic). -/
def checkedMulU32 (a b : ℕ) : Option ℕ :=
  if a * b < 2 ^ 32 then some (a * b) else none

/-- `DanmakuType` from `src/danmaku.rs`. -/
inductive DanmakuType
  | Scroll
  | Top
  | Bottom
  | Unknown
deriving DecidableEq, Repr

/-- `DanmakuSize` from `src/danmaku.rs`. -/
inductive DanmakuSize
  | Small
  | Regular
  | Large
deriving DecidableEq, Repr

/-- `DanmakuColor::from_code_cast` from `src/danmaku.rs`: mask to 24 bits. -/
def DanmakuColor.from_code_cast (rgb : ℕ) : ℕ :=
  rgb &&& 0xFFFFFF

/-- `DanmakuTime` subtraction (`impl Sub for DanmakuTime`, `src/danmaku.rs`):
`self.0 - rhs.0` on `u32`, then `Duration::from_millis`.  The result is the
duration in milliseconds; `none` models the underflow panic. -/
def DanmakuTime.sub (a b : ℕ) : Option ℕ :=
  checkedSubU32 a b

/-- `Danmaku` from `src/danmaku.rs` (`time` in `u32` milliseconds,
`color` a 24-bit code). -/
structure Danmaku where
  time : ℕ
  type : DanmakuType
  size : DanmakuSize
  color : ℕ
  content : String
deriving DecidableEq, Repr

/-- `DanmakuPosition` from `src/layout.rs`. -/
inductive DanmakuPosition
  | Scroll (track : ℕ)
  | Top (track : ℕ)
  | Bottom (track : ℕ)
deriving DecidableEq, Repr

/-- `LayoutMode` from `src/layout.rs`. -/
inductive LayoutMode
  | NoOverlap (percent : ℕ)
  | ShowAll
deriving DecidableEq, Repr

/-- `DanmakuItem` from `src/layout.rs` (the layout engine's view of a
comment: pixel width, arrival time, type). -/
structure DanmakuItem where
  width : ℕ
  time : ℕ
  type : DanmakuType
deriving DecidableEq, Repr

/-- `StaticDanmakuTrackState` from `src/layout.rs`. -/
structure StaticDanmakuTrackState where
  tracks : List (Option DanmakuItem)
  lifetime : ℕ
  index : ℕ
deriving DecidableEq, Repr

/-- `StaticDanmakuTrackState::new`. -/
def StaticDanmakuTrackState.new (tracks lifetime : ℕ) : StaticDanmakuTrackState :=
  ⟨List.replicate tracks none, lifetime, 0⟩

/-- The slot loop of `StaticDanmakuTrackState::clear_expired`: empty every
slot whose stored item satisfies `now_time - item.time > lifetime`.  The `u32`
subtraction is checked, so a stored time later than `now_time` is a panic
(`none`). -/
def clearSlots (lifetime now_time : ℕ) :
    List (Option DanmakuItem) → Option (List (Option DanmakuItem))
  | [] => some []
  | slot :: rest => do
      let slot' ←
        match slot with
        | some item => do
            let passed ← DanmakuTime.sub now_time item.time
            pure (if lifetime < passed then none else some item)
        | none => pure none
      let rest' ← clearSlots lifetime now_time rest
      pure (slot' :: rest')

/-- `StaticDanmakuTrackState::clear_expired`. -/
def StaticDanmakuTrackState.clear_expired (s : StaticDanmakuTrackState) (now_time : ℕ) :
    Option StaticDanmakuTrackState := do
  let tracks ← clearSlots s.lifetime now_time s.tracks
  pure { s with tracks := tracks }

/-- `StaticDanmakuTrackState::find_empty_track`: first empty slot. -/
def StaticDanmakuTrackState.find_empty_track (s : StaticDanmakuTrackState) : Option ℕ :=
  s.tracks.findIdx? fun track => track.isNone

/-- `StaticDanmakuTrackState::find_track`. -/
def StaticDanmakuTrackState.find_track (s : StaticDanmakuTrackState) (mode : LayoutMode) :
    Option ℕ :=
  if s.tracks.isEmpty then none
  else
    let track := s.find_empty_track
    match mode with
    | .NoOverlap _ => track
    | .ShowAll => some (track.getD (s.index % s.tracks.length))

/-- `StaticDanmakuTrackState::insert`. -/
def StaticDanmakuTrackState.insert (s : StaticDanmakuTrackState) (track : ℕ)
    (item : DanmakuItem) : StaticDanmakuTrackState :=
  { s with tracks := s.tracks.set track (some item), index := s.index + 1 }

/-- `ScrollDanmakuTrack` from `src/layout.rs`. -/
structure ScrollDanmakuTrack where
  latest_danmaku_item : Option DanmakuItem
deriving DecidableEq, Repr

/-- `ScrollDanmakuTrack::clear_expired`. -/
def ScrollDanmakuTrack.clear_expired (t : ScrollDanmakuTrack) (lifetime now_time : ℕ) :
    Option ScrollDanmakuTrack :=
  match t.latest_danmaku_item with
  | some item => do
      let passed ← DanmakuTime.sub now_time item.time
      pure ⟨if lifetime < passed then none else some item⟩
  | none => pure t

/-- `ScrollDanmakuTrack::will_overlap`.  The Rust code computes in `f64`; it is
modelled here in exact rational arithmetic.  The two `u32` additions and the
`u32` time subtraction are checked (`none` models the panic).  The branch where
the two speeds are exactly equal is written out explicitly: there the Rust code
divides by zero in `f64`, giving `+inf` (or `NaN` when `distance_last` is also
zero), and in both cases the final `<` comparison is false, so the function
returns `false`. -/
def ScrollDanmakuTrack.will_overlap (t : ScrollDanmakuTrack) (screen_width lifetime : ℕ)
    (item : DanmakuItem) : Option Bool :=
  match t.latest_danmaku_item with
  | none => some false
  | some last_item => do
      let sum_last ← checkedAddU32 screen_width last_item.width
      let sum_current ← checkedAddU32 screen_width item.width
      let dt ← checkedSubU32 item.time last_item.time
      let lifetime_q : ℚ := lifetime
      let speed_last : ℚ := sum_last / lifetime_q
      let speed_current : ℚ := sum_current / lifetime_q
      let distance_last : ℚ := speed_last * dt - last_item.width
      if distance_last < 0 then
        pure true
      else if speed_current < speed_last then
        pure false
      else if speed_last = speed_current then
        pure false
      else
        let time_to_reach : ℚ := distance_last / (speed_current - speed_last)
        let time_current : ℚ := (screen_width : ℚ) / speed_current
        pure (decide (time_to_reach < time_current))

/-- `ScrollDanmakuTrack::insert`. -/
def ScrollDanmakuTrack.insert (_t : ScrollDanmakuTrack) (item : DanmakuItem) :
    ScrollDanmakuTrack :=
  ⟨some item⟩

/-- `ScrollDanmakuTrackState` from `src/layout.rs`. -/
structure ScrollDanmakuTrackState where
  tracks : List ScrollDanmakuTrack
  lifetime : ℕ
  screen_width : ℕ
  index : ℕ
deriving DecidableEq, Repr

/-- `ScrollDanmakuTrackState::new`. -/
def ScrollDanmakuTrackState.new (tracks screen_width lifetime : ℕ) :
    ScrollDanmakuTrackState :=
  ⟨List.replicate tracks ⟨none⟩, lifetime, screen_width, 0⟩

/-- The track loop of `ScrollDanmakuTrackState::clear_expired`. -/
def clearScrollTracks (lifetime now_time : ℕ) :
    List ScrollDanmakuTrack → Option (List ScrollDanmakuTrack)
  | [] => some []
  | track :: rest => do
      let track' ← track.clear_expired lifetime now_time
      let rest' ← clearScrollTracks lifetime now_time rest
      pure (track' :: rest')

/-- `ScrollDanmakuTrackState::clear_expired`. -/
def ScrollDanmakuTrackState.clear_expired (s : ScrollDanmakuTrackState) (now_time : ℕ) :
    Option ScrollDanmakuTrackState := do
  let tracks ← clearScrollTracks s.lifetime now_time s.tracks
  pure { s with tracks := tracks }

/-- The scan of `Iterator::position` inside
`ScrollDanmakuTrackState::find_empty_track`: first track (from position `i`)
whose `will_overlap` is false.  The outer `Option` layer is `none` when a
`will_overlap` call along the scan panics. -/
def scrollFindFrom (screen_width lifetime : ℕ) (item : DanmakuItem) :
    List ScrollDanmakuTrack → ℕ → Option (Option ℕ)
  | [], _ => some none
  | track :: rest, i => do
      let overlap ← track.will_overlap screen_width lifetime item
      if overlap then scrollFindFrom screen_width lifetime item rest (i + 1)
      else pure (some i)

/-- `ScrollDanmakuTrackState::find_empty_track`. -/
def ScrollDanmakuTrackState.find_empty_track (s : ScrollDanmakuTrackState)
    (item : DanmakuItem) : Option (Option ℕ) :=
  scrollFindFrom s.screen_width s.lifetime item s.tracks 0

/-- `ScrollDanmakuTrackState::find_track`. -/
def ScrollDanmakuTrackState.find_track (s : ScrollDanmakuTrackState) (item : DanmakuItem)
    (mode : LayoutMode) : Option (Option ℕ) :=
  if s.tracks.isEmpty then some none
  else do
    let track ← s.find_empty_track item
    match mode with
    | .NoOverlap _ => pure track
    | .ShowAll => pure (some (track.getD (s.index % s.tracks.length)))

/-- `ScrollDanmakuTrackState::insert`. -/
def ScrollDanmakuTrackState.insert (s : ScrollDanmakuTrackState) (track : ℕ)
    (item : DanmakuItem) : ScrollDanmakuTrackState :=
  { s with tracks := s.tracks.set track ⟨some item⟩, index := s.index + 1 }

/-- `DanmakuTrackState` from `src/layout.rs`. -/
structure DanmakuTrackState where
  mode : LayoutMode
  top : StaticDanmakuTrackState
  bottom : StaticDanmakuTrackState
  scroll : ScrollDanmakuTrackState
deriving DecidableEq, Repr

/-- `DanmakuTrackState::new`.  `screen_size.1 / line_height` is a `u32`
division, which panics when `line_height` is zero (`none`). -/
def DanmakuTrackState.new (mode : LayoutMode) (screen_size : ℕ × ℕ)
    (line_height lifetime : ℕ) : Option DanmakuTrackState :=
  if line_height = 0 then none
  else
    let total_tracks := screen_size.2 / line_height
    let counts : ℕ × ℕ :=
      match mode with
      | .NoOverlap percent =>
          let tracks := total_tracks * percent / 100
          (tracks, min tracks (total_tracks / 2))
      | .ShowAll => (total_tracks, total_tracks)
    some
      { mode := mode
        top := StaticDanmakuTrackState.new counts.2 lifetime
        bottom := StaticDanmakuTrackState.new counts.2 lifetime
        scroll := ScrollDanmakuTrackState.new counts.1 screen_size.1 lifetime }

/-- `DanmakuTrackState::insert`.  The result pairs the returned
`Option<DanmakuPosition>` with the updated state; the outer `Option` is `none`
when a checked `u32` operation inside panics. -/
def DanmakuTrackState.insert (s : DanmakuTrackState) (item : DanmakuItem) :
    Option (Option DanmakuPosition × DanmakuTrackState) :=
  match item.type with
  | .Scroll => do
      let scroll ← s.scroll.clear_expired item.time
      let track ← scroll.find_track item s.mode
      match track with
      | some track => pure (some (.Scroll track), { s with scroll := scroll.insert track item })
      | none => pure (none, { s with scroll := scroll })
  | .Top => do
      let top ← s.top.clear_expired item.time
      match top.find_track s.mode with
      | some track => pure (some (.Top track), { s with top := top.insert track item })
      | none => pure (none, { s with top := top })
  | .Bottom => do
      let bottom ← s.bottom.clear_expired item.time
      match bottom.find_track s.mode with
      | some track => pure (some (.Bottom track), { s with bottom := bottom.insert track item })
      | none => pure (none, { s with bottom := bottom })
  | .Unknown => some (none, s)

/-! ### Worker triple buffer (`src/worker.rs`) -/

/-- A chunk snapshot as seen through the `ChunkBuffer` capability
(`index()` and `base_state_index()`), from `src/worker.rs`. -/
structure ChunkSnapshot where
  index : ℕ
  base_state_index : ℕ
deriving DecidableEq, Repr

/-- `WorkerBuffer` from `src/worker.rs` (the `cache` field carries no state
relevant to the predicates and is omitted). -/
structure WorkerBuffer where
  previous : Option ChunkSnapshot
  current : Option ChunkSnapshot
  next : Option ChunkSnapshot
deriving DecidableEq, Repr

/-- `WorkerBuffer::should_request_worker`.  The first `if let` matches
`previous.zip(current)` and returns from the function; the second matches
`current.zip(next)` and returns `false` only when the current index matches. -/
def WorkerBuffer.should_request_worker (b : WorkerBuffer) (index : ℕ) : Bool :=
  match b.previous, b.current with
  | some _, some current => current.index != index
  | _, _ =>
    match b.current, b.next with
    | some current, some _ => if current.index = index then false else true
    | _, _ => true

/-- Modelled from the spec (§4.4): the buffer holds three snapshots whose
indices are `(i-1, i, i+1)` with matching `base_state_index`.  Stated for
comparison against `should_request_worker`. -/
def WorkerBuffer.holdsAlignedTriple (b : WorkerBuffer) (index : ℕ) : Prop :=
  ∃ p c n, b.previous = some p ∧ b.current = some c ∧ b.next = some n ∧
    p.index + 1 = index ∧ c.index = index ∧ n.index = index + 1 ∧
    p.base_state_index = c.base_state_index ∧ c.base_state_index = n.base_state_index

/-! ### In-memory source (`src/sources/mod.rs`) -/

/-- Placeholder comment for the unreachable branch of the binary-search model. -/
def defaultDanmaku : Danmaku :=
  ⟨0, .Unknown, .Regular, 0, ""⟩

instance : Inhabited Danmaku := ⟨defaultDanmaku⟩

/-- Rust `slice::binary_search_by` with comparator `item.time.cmp(&time)`
(`VecDanmakuSource::find_index`): `.inl i` models `Ok(i)` (some matching
index), `.inr l` models `Err(l)` (the insertion point).  One fuel unit is
spent per loop iteration; the interval `[left, right)` shrinks on every
iteration, so any fuel `≥ right - left` reproduces the loop exactly
(`find_index` passes the slice length). -/
def binarySearchGo (source : List Danmaku) (time : ℕ) :
    (fuel left right : ℕ) → ℕ ⊕ ℕ
  | 0, left, _ => .inr left
  | fuel + 1, left, right =>
    if left < right then
      let mid := left + (right - left) / 2
      let t := (source.getD mid defaultDanmaku).time
      if t < time then binarySearchGo source time fuel (mid + 1) right
      else if time < t then binarySearchGo source time fuel left mid
      else .inl mid
    else .inr left

/-- `VecDanmakuSource::find_index`. -/
def find_index (source : List Danmaku) (time : ℕ) : ℕ ⊕ ℕ :=
  binarySearchGo source time source.length 0 source.length

/-- `VecDanmakuSourceIterator::next` iterated to exhaustion, viewed on the
suffix of the vector that starts at the iterator's index.  The Rust `next`
evaluates `&self.source[self.index]` before the end-of-range test, so an
empty remaining suffix is an out-of-bounds panic, modelled as `none`. -/
def iterCollect (end_excluded : ℕ) : List Danmaku → Option (List Danmaku)
  | [] => none
  | item :: rest =>
      if end_excluded ≤ item.time then some []
      else (iterCollect end_excluded rest).map (item :: ·)

/-- `VecDanmakuSource::get_range`, driven to exhaustion: the comments the
returned iterator yields, or `none` when iteration panics. -/
def get_range (source : List Danmaku) (start_included end_excluded : ℕ) :
    Option (List Danmaku) :=
  let start :=
    match find_index source start_included with
    | .inl i => i
    | .inr i => i
  iterCollect end_excluded (source.drop start)

/-- `VecDanmakuSource::new`: sort the vector by `time`. -/
def VecDanmakuSource.new (vec : List Danmaku) : List Danmaku :=
  vec.mergeSort (fun a b => a.time ≤ b.time)

/-! ### Chunk provider (`src/manager.rs`) -/

/-- `LayoutedDanmakuItem` from `src/manager.rs`, with the shaped line reduced
to its pixel width and the physical glyphs reduced to their cache keys
(cache keys modelled as `ℕ`). -/
structure LayoutedDanmakuItem where
  width : ℕ
  physical_glyphs : List ℕ
  time : ℕ
  color : ℕ
  type : DanmakuType
  size : DanmakuSize
deriving DecidableEq, Repr

/-- `impl From<&LayoutedDanmakuItem> for DanmakuItem` (`src/layout.rs`). -/
def DanmakuItem.ofLayouted (v : LayoutedDanmakuItem) : DanmakuItem :=
  ⟨v.width, v.time, v.type⟩

/-- The external text shaper (the `cosmic_text` calls inside
`LayoutedDanmakuItem::new`): for a comment it produces the single laid-out
line's width and glyph cache keys, or `none` when layout yields no line.  It
stands in for the `font_system`/`shape_buffer` arguments threaded through
`get_chunk` and already reflects the provider's font size and attributes. -/
def Shaper : Type := Danmaku → Option (ℕ × List ℕ)

/-- `LayoutedDanmakuItem::new`: shape the comment's text, then attach the
comment's own fields. -/
def LayoutedDanmakuItem.new (shaper : Shaper) (danmaku : Danmaku) :
    Option LayoutedDanmakuItem :=
  (shaper danmaku).map fun wg =>
    ⟨wg.1, wg.2, danmaku.time, danmaku.color, danmaku.type, danmaku.size⟩

/-- `PositionedDanmakuItem` from `src/manager.rs`. -/
structure PositionedDanmakuItem where
  item : LayoutedDanmakuItem
  position : DanmakuPosition
deriving DecidableEq, Repr

/-- `DanmakuTimeChunk` from `src/manager.rs` (`glyph_ids` is a `BTreeSet`,
modelled as a `Finset`). -/
structure DanmakuTimeChunk where
  base_state_index : ℕ
  index : ℕ
  items : List PositionedDanmakuItem
  glyph_ids : Finset ℕ
deriving DecidableEq

/-- `BTreeMap::remove` on an association list keyed by chunk index. -/
def mapErase {α : Type} (m : List (ℕ × α)) (k : ℕ) : List (ℕ × α) :=
  m.filter fun e => e.1 != k

/-- `BTreeMap::insert` on an association list keyed by chunk index. -/
def mapInsert {α : Type} (m : List (ℕ × α)) (k : ℕ) (v : α) : List (ℕ × α) :=
  (k, v) :: mapErase m k

/-- `DanmakuTimeChunkProvider` from `src/manager.rs`.  `lifetime` is the whole
number of milliseconds (`lifetime.as_millis() as u32`); `font_size` and
`font_attrs` live inside the `Shaper`. -/
structure DanmakuTimeChunkProvider where
  lifetime : ℕ
  screen_size : ℕ × ℕ
  line_height : ℕ
  layout_mode : LayoutMode
  source : List Danmaku
  states : List (ℕ × (ℕ × DanmakuTrackState))
  chunks : List (ℕ × DanmakuTimeChunk)
deriving DecidableEq

/-- `DanmakuTimeChunkProvider::new` over a `VecDanmakuSource` (whose
constructor sorts the comments by time). -/
def DanmakuTimeChunkProvider.new (lifetime : ℕ) (screen_size : ℕ × ℕ)
    (line_height : ℕ) (layout_mode : LayoutMode) (vec : List Danmaku) :
    DanmakuTimeChunkProvider :=
  ⟨lifetime, screen_size, line_height, layout_mode, VecDanmakuSource.new vec, [], []⟩

/-- The comment loop of `DanmakuTimeChunkProvider::generate_chunk`: shape each
comment, offer it to the track state, and accumulate positioned items and
glyph cache keys (each accepted item's glyph keys are inserted one by one). -/
def generateItems (shaper : Shaper) :
    List Danmaku → List PositionedDanmakuItem → Finset ℕ → DanmakuTrackState →
    Option (List PositionedDanmakuItem × Finset ℕ × DanmakuTrackState)
  | [], items, glyph_ids, state => some (items, glyph_ids, state)
  | danmaku :: rest, items, glyph_ids, state =>
    match LayoutedDanmakuItem.new shaper danmaku with
    | none => generateItems shaper rest items glyph_ids state
    | some layouted => do
        let (result, state') ← state.insert (DanmakuItem.ofLayouted layouted)
        match result with
        | some position =>
            generateItems shaper rest (items ++ [⟨layouted, position⟩])
              (layouted.physical_glyphs.foldl (fun s k => insert k s) glyph_ids) state'
        | none => generateItems shaper rest items glyph_ids state'

/-- `DanmakuTimeChunkProvider::generate_chunk`.  `lifetime * index` and
`start_millis + lifetime` are `u32` operations (checked). -/
def DanmakuTimeChunkProvider.generate_chunk (p : DanmakuTimeChunkProvider)
    (shaper : Shaper) (base_state_index : ℕ) (base_state : DanmakuTrackState)
    (index : ℕ) : Option (DanmakuTimeChunk × DanmakuTrackState) := do
  let start_millis ← checkedMulU32 p.lifetime index
  let end_millis ← checkedAddU32 start_millis p.lifetime
  let range ← get_range p.source start_millis end_millis
  let (items, glyph_ids, state') ← generateItems shaper range [] ∅ base_state
  pure (⟨base_state_index, index, items, glyph_ids⟩, state')

/-- The cache-miss path of `DanmakuTimeChunkProvider::get_chunk`: consume the
stored state entry `index - 1` when `index != 0` and it exists, otherwise
start a fresh `DanmakuTrackState` with `base_state_index = index`; generate;
store the new state entry and cache the chunk. -/
def DanmakuTimeChunkProvider.regenerate (p : DanmakuTimeChunkProvider)
    (shaper : Shaper) (index : ℕ) :
    Option (DanmakuTimeChunk × DanmakuTimeChunkProvider) := do
  let stored := if index ≠ 0 then List.lookup (index - 1) p.states else none
  let states := if index ≠ 0 then mapErase p.states (index - 1) else p.states
  let (base_state_index, base_state) ←
    match stored with
    | some entry => some entry
    | none => do
        let fresh ← DanmakuTrackState.new p.layout_mode p.screen_size p.line_height p.lifetime
        some (index, fresh)
  let (chunk, state') ← p.generate_chunk shaper base_state_index base_state index
  pure (chunk,
    { p with
        states := mapInsert states index (base_state_index, state')
        chunks := mapInsert p.chunks index chunk })

/-- `DanmakuTimeChunkProvider::get_chunk`. -/
def DanmakuTimeChunkProvider.get_chunk (p : DanmakuTimeChunkProvider)
    (shaper : Shaper) (base_state_index : Option ℕ) (index : ℕ) :
    Option (DanmakuTimeChunk × DanmakuTimeChunkProvider) :=
  match List.lookup index p.chunks, base_state_index with
  | some chunk, some hint =>
      if chunk.base_state_index = hint then some (chunk, p)
      else p.regenerate shaper index
  | some chunk, none => some (chunk, p)
  | none, _ => p.regenerate shaper index

/-! ### Bilibili XML attribute parsing (`src/sources/bilibili.rs`) -/

/-- Rust `str::split(',')` on the attribute characters: the comma-separated
fields (an empty string yields one empty field, like the Rust iterator). -/
def splitComma : List Char → List (List Char)
  | [] => [[]]
  | c :: rest =>
    if c = ',' then [] :: splitComma rest
    else
      match splitComma rest with
      | field :: fields => (c :: field) :: fields
      | [] => [[c]]

/-- Numeric value of a list of ASCII digits. -/
def digitsVal (cs : List Char) : ℕ :=
  cs.foldl (fun a c => a * 10 + (c.toNat - 48)) 0

/-- Rust `str::parse::<u32>()`: optional leading `+`, then one or more ASCII
digits; values past `u32::MAX` are an error. -/
def parseU32 (field : List Char) : Option ℕ :=
  let cs :=
    match field with
    | '+' :: rest => rest
    | cs => cs
  if cs.isEmpty then none
  else if cs.all (fun c => c.isDigit) then
    let v := digitsVal cs
    if v < 2 ^ 32 then some v else none
  else none

/-- The `f64` parse of the time field (`str::parse::<f64>()`), modelled as an
exact decimal rational: optional sign, integer digits, optional `.` and
fraction digits.  Exponent/`inf`/`nan` forms and rounding to the nearest
binary `f64` are not modelled. -/
def parseDecimal (field : List Char) : Option ℚ :=
  let signed :=
    match field with
    | '-' :: rest => (true, rest)
    | '+' :: rest => (false, rest)
    | cs => (false, cs)
  let cs := signed.2
  let intPart := cs.takeWhile (fun c => c.isDigit)
  let parsed : Option ℚ :=
    match cs.drop intPart.length with
    | [] => if intPart.isEmpty then none else some (digitsVal intPart)
    | '.' :: fracPart =>
        if fracPart.all (fun c => c.isDigit) && !(intPart.isEmpty && fracPart.isEmpty) then
          some ((digitsVal intPart : ℚ) + (digitsVal fracPart : ℚ) / (10 : ℚ) ^ fracPart.length)
        else none
    | _ => none
  parsed.map fun q => if signed.1 then -q else q

/-- Rust `as u32` applied to an `f64`: truncate toward zero, saturating. -/
def f64AsU32 (q : ℚ) : ℕ :=
  if q < 0 then 0
  else if (4294967296 : ℚ) ≤ q then 4294967295
  else q.floor.toNat

/-- The mode-field mapping in `parse_xml` (field 1). -/
def modeToType (num : ℕ) : DanmakuType :=
  if 1 ≤ num ∧ num ≤ 3 then .Scroll
  else if num = 4 then .Bottom
  else if num = 5 then .Top
  else .Unknown

/-- The font-size-field mapping in `parse_xml` (field 2): `num.cmp(&25)`. -/
def fontSizeToSize (num : ℕ) : DanmakuSize :=
  if num < 25 then .Small
  else if num = 25 then .Regular
  else .Large

/-- The four options the field loop of `parse_xml` fills in. -/
structure ParsedAttributes where
  time : Option ℕ
  type : Option DanmakuType
  size : Option DanmakuSize
  color : Option ℕ
deriving DecidableEq, Repr

/-- The loop over `attributes.split(',').enumerate()` in `parse_xml`;
field indices past 3 hit the `break`. -/
def parseFields : List (List Char) → ℕ → ParsedAttributes → Option ParsedAttributes
  | [], _, acc => some acc
  | field :: rest, i, acc =>
    match i with
    | 0 => do
        let seconds ← parseDecimal field
        parseFields rest 1 { acc with time := some (f64AsU32 (seconds * 1000)) }
    | 1 => do
        let num ← parseU32 field
        parseFields rest 2 { acc with type := some (modeToType num) }
    | 2 => do
        let num ← parseU32 field
        parseFields rest 3 { acc with size := some (fontSizeToSize num) }
    | 3 => do
        let num ← parseU32 field
        parseFields rest 4 { acc with color := some (DanmakuColor.from_code_cast num) }
    | _ => some acc

/-- The `Event::Text` handling of a `<d>` element in `parse_xml`: parse the
comma-separated `p` attribute and build the `Danmaku`; a missing field is the
`BadAttribute` error (`none`). -/
def parseDanmakuElement (attributes text : String) : Option Danmaku := do
  let fields ← parseFields (splitComma attributes.data) 0 ⟨none, none, none, none⟩
  let time ← fields.time
  let type ← fields.type
  let size ← fields.size
  let color ← fields.color
  pure ⟨time, type, size, color, text⟩

/-! ### Predicates and concrete instances used by the theorems -/

/-- `it` occupies some slot of a static track state. -/
def StaticOccupant (s : StaticDanmakuTrackState) (it : DanmakuItem) : Prop :=
  some it ∈ s.tracks

/-- `it` is the most recent occupant of some scroll lane. -/
def ScrollOccupant (s : ScrollDanmakuTrackState) (it : DanmakuItem) : Prop :=
  ∃ t ∈ s.tracks, t.latest_danmaku_item = some it

/-- The arithmetic preconditions under which `DanmakuTrackState::insert` cannot
panic: every stored occupant arrived no later than the incoming item (so the
`u32` subtractions in `clear_expired` and `will_overlap` cannot underflow) and
all `screen_width + width` sums fit in `u32`. -/
def DanmakuTrackState.InsertSafe (s : DanmakuTrackState) (item : DanmakuItem) : Prop :=
  (∀ it, StaticOccupant s.top it → it.time ≤ item.time) ∧
  (∀ it, StaticOccupant s.bottom it → it.time ≤ item.time) ∧
  (∀ it, ScrollOccupant s.scroll it →
    it.time ≤ item.time ∧ s.scroll.screen_width + it.width < 2 ^ 32) ∧
  s.scroll.screen_width + item.width < 2 ^ 32

/-- The union of the glyph cache keys referenced by a list of positioned
items. -/
def chunkGlyphUnion (items : List PositionedDanmakuItem) : Finset ℕ :=
  items.foldl (fun acc it => acc ∪ it.item.physical_glyphs.toFinset) ∅

/-- The Chunk invariant of spec §3: items lie in the chunk's half-open time
window, `base_state_index ≤ index`, and `glyph_ids` is the union of the glyph
keys referenced by the items. -/
def ChunkOK (lifetime : ℕ) (c : DanmakuTimeChunk) : Prop :=
  (∀ it ∈ c.items,
    c.index * lifetime ≤ it.item.time ∧ it.item.time < (c.index + 1) * lifetime) ∧
  c.base_state_index ≤ c.index ∧
  c.glyph_ids = chunkGlyphUnion c.items

/-- The comments are sorted by time (what `VecDanmakuSource::new` establishes
and the binary search relies on). -/
def SortedByTime (l : List Danmaku) : Prop :=
  l.Pairwise fun a b => a.time ≤ b.time

/-- Provider states reachable by `get_chunk` calls satisfy this invariant:
the source is sorted, every cached chunk is stored under its own index and
satisfies the Chunk invariant, and every stored state entry's
`base_state_index` is at most its key. -/
def ProviderInv (p : DanmakuTimeChunkProvider) : Prop :=
  SortedByTime p.source ∧
  (∀ k c, List.lookup k p.chunks = some c → c.index = k ∧ ChunkOK p.lifetime c) ∧
  (∀ k b st, List.lookup k p.states = some (b, st) → b ≤ k)

/-- Modelled from the spec (§4.1): the speed of a scroll item of width `w` on
a screen of width `W` with lifetime `L` milliseconds: `(W + w) / L`. -/
def specSpeed (screen_width width lifetime : ℕ) : ℚ :=
  ((screen_width : ℚ) + width) / lifetime

/-- Modelled from the spec (§4.1): lane compatibility of a candidate scroll
item `cur` against a lane whose most recent occupant is `last` — condition (1)
`d = speed_prev · (t_cur − t_prev) − w_prev ≥ 0` and condition (2) either
`speed_prev ≥ speed_cur` or the catch-up time `d / (speed_cur − speed_prev)`
is at least the traversal time `W / speed_cur`. -/
def specLaneCompatible (screen_width lifetime : ℕ) (last cur : DanmakuItem) : Prop :=
  let speed_prev := specSpeed screen_width last.width lifetime
  let speed_cur := specSpeed screen_width cur.width lifetime
  let d := speed_prev * ((cur.time : ℚ) - (last.time : ℚ)) - (last.width : ℚ)
  0 ≤ d ∧
    (speed_cur ≤ speed_prev ∨
      (screen_width : ℚ) / speed_cur ≤ d / (speed_cur - speed_prev))

/-- A shaper that lays out no comment (text layout yields no line, so every
comment is skipped). -/
def demoShaper : Shaper := fun _ => none

/-- One far-future comment; it keeps the range iterator of small chunk
indices from running past the end of the vector (see `iterCollect`). -/
def sentinelDanmaku : Danmaku := ⟨10000000, .Scroll, .Regular, 0, "s"⟩

/-- A small provider: lifetime 1000 ms, a 1280×32 screen with one 32-pixel
line, `ShowAll`, no cached chunks or states. -/
def demoProvider : DanmakuTimeChunkProvider :=
  ⟨1000, (1280, 32), 32, .ShowAll, [sentinelDanmaku], [], []⟩

/-- The fresh track state for `demoProvider`'s geometry (one lane per kind). -/
def demoTrack : DanmakuTrackState :=
  ⟨.ShowAll, ⟨[none], 1000, 0⟩, ⟨[none], 1000, 0⟩, ⟨[⟨none⟩], 1000, 1280, 0⟩⟩

/-- An empty chunk with the given base state index and index. -/
def demoChunk (b i : ℕ) : DanmakuTimeChunk := ⟨b, i, [], ∅⟩

/-- `demoProvider` after generating the (empty) chunk `i` from a track state
chain that began at `b`. -/
def demoProviderAfter (b i : ℕ) : DanmakuTimeChunkProvider :=
  { demoProvider with
      states := [(i, (b, demoTrack))]
      chunks := [(i, demoChunk b i)] }

/-! ## Theorems -/

/-- **C3** (code_bug evidence): `VecDanmakuSource::get_range` does not always
yield exactly the stored comments in `[s, e)` and then terminate cleanly.
First conjunct: with a single comment at t=0, `get_range(0, 1000)` runs the
iterator past the end of the vector — `next` indexes `source[1]`, an
out-of-bounds panic (`none`) — instead of yielding the comment and `None`.
Second conjunct: with two comments sharing time 5, `get_range(5, 10)` starts
at the binary-search hit index 1 and silently skips the first comment with
time 5. -/
theorem get_range_failing_inputs :
    get_range [⟨0, .Scroll, .Regular, 0, "a"⟩] 0 1000 = none ∧
    get_range [⟨5, .Scroll, .Regular, 0, "a"⟩, ⟨5, .Scroll, .Regular, 0, "b"⟩,
        ⟨100, .Scroll, .Regular, 0, "c"⟩] 5 10 =
      some [⟨5, .Scroll, .Regular, 0, "b"⟩] := by
  decide

/-- **C2** (amended): `should_request_worker(i)` returns `false` iff the
buffer's `current` snapshot exists with index `i` and at least one of
`previous`/`next` is present; the indices of `previous` and `next` and all
`base_state_index` values are not examined. -/
theorem should_request_worker_characterisation (b : WorkerBuffer) (index : ℕ) :
    b.should_request_worker index = false ↔
      ∃ c, b.current = some c ∧ c.index = index ∧
        (b.previous.isSome ∨ b.next.isSome) := by
  obtain ⟨prev, cur, nxt⟩ := b
  cases prev <;> cases cur <;> cases nxt <;>
    simp [WorkerBuffer.should_request_worker]

/-- **C2** (counterexample): a buffer whose `previous` has index 0, whose
`current` has index 5 with a different `base_state_index`, and whose `next` is
absent.  `should_request_worker 5` returns `false`, yet the buffer does not
hold three snapshots with indices `(4, 5, 6)` and matching
`base_state_index`. -/
theorem should_request_worker_counterexample :
    WorkerBuffer.should_request_worker ⟨some ⟨0, 0⟩, some ⟨5, 3⟩, none⟩ 5 = false ∧
    ¬ WorkerBuffer.holdsAlignedTriple ⟨some ⟨0, 0⟩, some ⟨5, 3⟩, none⟩ 5 := by
  constructor
  · decide
  · rintro ⟨p, c, n, -, -, hn, -⟩
    exact Option.noConfusion hn

/-- If every stored item is no later than `now_time`, the slot loop of the
static `clear_expired` cannot underflow; it preserves the slot count and only
ever empties slots. -/
theorem clearSlots_spec (lifetime now_time : ℕ) (slots : List (Option DanmakuItem))
    (h : ∀ it, some it ∈ slots → it.time ≤ now_time) :
    ∃ slots', clearSlots lifetime now_time slots = some slots' ∧
      slots'.length = slots.length ∧ ∀ it, some it ∈ slots' → some it ∈ slots := by
  induction slots with
  | nil => exact ⟨[], rfl, rfl, by simp⟩
  | cons slot rest ih =>
    obtain ⟨rest', hr, hlen, hmem⟩ := ih fun it hit => h it (List.mem_cons_of_mem _ hit)
    cases slot with
    | none =>
      refine ⟨none :: rest', ?_, by simp [hlen], ?_⟩
      · simp [clearSlots, hr]
      · intro it hit
        rcases List.mem_cons.mp hit with hit | hit
        · exact Option.noConfusion hit
        · exact List.mem_cons_of_mem _ (hmem it hit)
    | some item =>
      have htime : item.time ≤ now_time := h item (List.mem_cons_self _ _)
      refine ⟨(if lifetime < now_time - item.time then none else some item) :: rest',
        ?_, by simp [hlen], ?_⟩
      · simp [clearSlots, DanmakuTime.sub, checkedSubU32, htime, hr]
      · intro it hit
        rcases List.mem_cons.mp hit with hit | hit
        · split at hit
          · exact Option.noConfusion hit
          · cases hit
            exact List.mem_cons_self _ _
        · exact List.mem_cons_of_mem _ (hmem it hit)

/-- One scroll track's `clear_expired` succeeds when its occupant is no later
than `now_time`, and never installs a new occupant. -/
theorem scroll_track_clear_spec (lifetime now_time : ℕ) (t : ScrollDanmakuTrack)
    (h : ∀ it, t.latest_danmaku_item = some it → it.time ≤ now_time) :
    ∃ t', t.clear_expired lifetime now_time = some t' ∧
      ∀ it, t'.latest_danmaku_item = some it → t.latest_danmaku_item = some it := by
  obtain ⟨latest⟩ := t
  cases latest with
  | none => exact ⟨⟨none⟩, rfl, fun it hit => hit⟩
  | some item =>
    have htime : item.time ≤ now_time := h item rfl
    refine ⟨⟨if lifetime < now_time - item.time then none else some item⟩, ?_, ?_⟩
    · simp [ScrollDanmakuTrack.clear_expired, DanmakuTime.sub, checkedSubU32, htime]
    · intro it hit
      simp only at hit
      split at hit
      · exact Option.noConfusion hit
      · exact hit

/-- The scroll-track loop of `clear_expired`: succeeds under the same time
bound, preserves the lane count, and only ever empties lanes. -/
theorem clearScrollTracks_spec (lifetime now_time : ℕ) (tracks : List ScrollDanmakuTrack)
    (h : ∀ tr ∈ tracks, ∀ it, tr.latest_danmaku_item = some it → it.time ≤ now_time) :
    ∃ tracks', clearScrollTracks lifetime now_time tracks = some tracks' ∧
      tracks'.length = tracks.length ∧
      ∀ tr' ∈ tracks', ∀ it, tr'.latest_danmaku_item = some it →
        ∃ tr ∈ tracks, tr.latest_danmaku_item = some it := by
  induction tracks with
  | nil => exact ⟨[], rfl, rfl, by simp⟩
  | cons track rest ih =>
    obtain ⟨rest', hr, hlen, hmem⟩ := ih fun tr htr => h tr (List.mem_cons_of_mem _ htr)
    obtain ⟨t', ht', hsub⟩ :=
      scroll_track_clear_spec lifetime now_time track (h track (List.mem_cons_self _ _))
    refine ⟨t' :: rest', ?_, by simp [hlen], ?_⟩
    · simp [clearScrollTracks, ht', hr]
    · intro tr' htr' it hit
      rcases List.mem_cons.mp htr' with htr' | htr'
      · exact ⟨track, List.mem_cons_self _ _, hsub it (htr' ▸ hit)⟩
      · obtain ⟨tr, htr, hlat⟩ := hmem tr' htr' it hit
        exact ⟨tr, List.mem_cons_of_mem _ htr, hlat⟩

/-- `StaticDanmakuTrackState::clear_expired` succeeds when every occupant is
no later than `now_time`; it preserves everything but the slots, and only
ever empties slots. -/
theorem static_clear_spec (s : StaticDanmakuTrackState) (now_time : ℕ)
    (h : ∀ it, StaticOccupant s it → it.time ≤ now_time) :
    ∃ s', s.clear_expired now_time = some s' ∧ s'.lifetime = s.lifetime ∧
      s'.index = s.index ∧ s'.tracks.length = s.tracks.length ∧
      ∀ it, StaticOccupant s' it → StaticOccupant s it := by
  obtain ⟨slots', hc, hlen, hmem⟩ := clearSlots_spec s.lifetime now_time s.tracks h
  exact ⟨{ s with tracks := slots' },
    by simp [StaticDanmakuTrackState.clear_expired, hc], rfl, rfl, hlen,
    fun it hit => hmem it hit⟩

/-- `ScrollDanmakuTrackState::clear_expired` succeeds when every occupant is
no later than `now_time`; it preserves everything but the lanes, and only
ever empties lanes. -/
theorem scroll_clear_spec (s : ScrollDanmakuTrackState) (now_time : ℕ)
    (h : ∀ it, ScrollOccupant s it → it.time ≤ now_time) :
    ∃ s', s.clear_expired now_time = some s' ∧ s'.lifetime = s.lifetime ∧
      s'.screen_width = s.screen_width ∧ s'.index = s.index ∧
      s'.tracks.length = s.tracks.length ∧
      ∀ it, ScrollOccupant s' it → ScrollOccupant s it := by
  obtain ⟨tracks', hc, hlen, hmem⟩ := clearScrollTracks_spec s.lifetime now_time s.tracks
    fun tr htr it hit => h it ⟨tr, htr, hit⟩
  refine ⟨{ s with tracks := tracks' },
    by simp [ScrollDanmakuTrackState.clear_expired, hc], rfl, rfl, rfl, hlen, ?_⟩
  rintro it ⟨tr', htr', hit⟩
  exact hmem tr' htr' it hit

/-- `will_overlap` cannot panic when the occupant (if any) is no later than
the candidate and the width sums fit in `u32`. -/
theorem will_overlap_isSome (t : ScrollDanmakuTrack) (screen_width lifetime : ℕ)
    (item : DanmakuItem)
    (h : ∀ it, t.latest_danmaku_item = some it →
      it.time ≤ item.time ∧ screen_width + it.width < 2 ^ 32)
    (hcur : screen_width + item.width < 2 ^ 32) :
    ∃ b, t.will_overlap screen_width lifetime item = some b := by
  obtain ⟨latest⟩ := t
  cases latest with
  | none => exact ⟨false, rfl⟩
  | some last =>
    obtain ⟨ht, hw⟩ := h last rfl
    simp only [ScrollDanmakuTrack.will_overlap, checkedAddU32, checkedSubU32, hw, hcur, ht,
      if_pos, Option.bind_eq_bind, Option.some_bind]
    split_ifs <;> exact ⟨_, rfl⟩

/-- The `Iterator::position` scan over the scroll lanes cannot panic under the
same bounds, and any found position is within the scanned range. -/
theorem scrollFindFrom_spec (screen_width lifetime : ℕ) (item : DanmakuItem)
    (tracks : List ScrollDanmakuTrack) (start : ℕ)
    (h : ∀ tr ∈ tracks, ∀ it, tr.latest_danmaku_item = some it →
      it.time ≤ item.time ∧ screen_width + it.width < 2 ^ 32)
    (hcur : screen_width + item.width < 2 ^ 32) :
    ∃ r, scrollFindFrom screen_width lifetime item tracks start = some r ∧
      ∀ j, r = some j → start ≤ j ∧ j < start + tracks.length := by
  induction tracks generalizing start with
  | nil => exact ⟨none, rfl, fun j hj => Option.noConfusion hj⟩
  | cons track rest ih =>
    obtain ⟨b, hb⟩ := will_overlap_isSome track screen_width lifetime item
      (h track (List.mem_cons_self _ _)) hcur
    cases b with
    | false =>
      refine ⟨some start, ?_, ?_⟩
      · simp [scrollFindFrom, hb]
      · intro j hj
        cases hj
        simp
    | true =>
      obtain ⟨r, hr, hbound⟩ := ih (start + 1) fun tr htr => h tr (List.mem_cons_of_mem _ htr)
      refine ⟨r, ?_, ?_⟩
      · simp [scrollFindFrom, hb, hr]
      · intro j hj
        have := hbound j hj
        constructor <;> [omega; (simp only [List.length_cons]; omega)]

/-- `StaticDanmakuTrackState::find_track` in `ShowAll` mode always yields a
lane strictly below the track count; when no slot is empty the lane is the
rotation counter modulo the track count. -/
theorem static_find_track_show_all (s : StaticDanmakuTrackState) (h : s.tracks ≠ []) :
    ∃ t, s.find_track .ShowAll = some t ∧ t < s.tracks.length ∧
      (s.find_empty_track = none → t = s.index % s.tracks.length) := by
  have hne : s.tracks.isEmpty = false := by
    simpa [List.isEmpty_iff] using h
  have hpos : 0 < s.tracks.length := List.length_pos.mpr h
  cases hf : s.find_empty_track with
  | none =>
    exact ⟨s.index % s.tracks.length,
      by simp [StaticDanmakuTrackState.find_track, hne, hf], Nat.mod_lt _ hpos, fun _ => rfl⟩
  | some i =>
    have hi : i < s.tracks.length :=
      (List.findIdx?_eq_some_iff_findIdx_eq.mp hf).1
    exact ⟨i, by simp [StaticDanmakuTrackState.find_track, hne, hf], hi,
      fun hc => Option.noConfusion hc⟩

/-- `ScrollDanmakuTrackState::find_track` in `ShowAll` mode, under the no-panic
bounds: always yields a lane strictly below the lane count; when no lane is
compatible the lane is the rotation counter modulo the lane count. -/
theorem scroll_find_track_show_all (s : ScrollDanmakuTrackState) (item : DanmakuItem)
    (hne : s.tracks ≠ [])
    (h : ∀ tr ∈ s.tracks, ∀ it, tr.latest_danmaku_item = some it →
      it.time ≤ item.time ∧ s.screen_width + it.width < 2 ^ 32)
    (hcur : s.screen_width + item.width < 2 ^ 32) :
    ∃ t, s.find_track item .ShowAll = some (some t) ∧ t < s.tracks.length ∧
      (s.find_empty_track item = some none → t = s.index % s.tracks.length) := by
  have hemp : s.tracks.isEmpty = false := by
    simpa [List.isEmpty_iff] using hne
  have hpos : 0 < s.tracks.length := List.length_pos.mpr hne
  obtain ⟨r, hr, hbound⟩ := scrollFindFrom_spec s.screen_width s.lifetime item s.tracks 0 h hcur
  have hfe : s.find_empty_track item = some r := hr
  cases r with
  | none =>
    refine ⟨s.index % s.tracks.length, ?_, Nat.mod_lt _ hpos, fun _ => rfl⟩
    simp [ScrollDanmakuTrackState.find_track, hemp, hfe]
  | some j =>
    have hj : j < s.tracks.length := by
      have := (hbound j rfl).2
      omega
    refine ⟨j, ?_, hj, ?_⟩
    · simp [ScrollDanmakuTrackState.find_track, hemp, hfe]
    · intro hc
      rw [hfe] at hc
      simp at hc

/-- The `Scroll` branch of `DanmakuTrackState::insert` under the no-panic
bounds: clearing succeeds and the insert returns; in `ShowAll` mode with at
least one lane the returned position is a lane strictly below the lane count,
falling back to the rotation counter modulo the lane count when no lane is
compatible. -/
theorem insert_scroll_case (s : DanmakuTrackState) (item : DanmakuItem)
    (hty : item.type = .Scroll)
    (hsc : ∀ it, ScrollOccupant s.scroll it →
      it.time ≤ item.time ∧ s.scroll.screen_width + it.width < 2 ^ 32)
    (hcur : s.scroll.screen_width + item.width < 2 ^ 32) :
    ∃ sc' res, s.scroll.clear_expired item.time = some sc' ∧
      s.insert item = some res ∧
      (s.mode = .ShowAll → s.scroll.tracks ≠ [] →
        ∃ t, res.1 = some (.Scroll t) ∧ t < s.scroll.tracks.length ∧
          (sc'.find_empty_track item = some none →
            t = s.scroll.index % s.scroll.tracks.length)) := by
  obtain ⟨sc', hclear, hlt, hsw, hidx, hlen, hocc⟩ :=
    scroll_clear_spec s.scroll item.time fun it hit => (hsc it hit).1
  have hsc' : ∀ tr ∈ sc'.tracks, ∀ it, tr.latest_danmaku_item = some it →
      it.time ≤ item.time ∧ sc'.screen_width + it.width < 2 ^ 32 := by
    intro tr htr it hit
    have := hsc it (hocc it ⟨tr, htr, hit⟩)
    rw [hsw]
    exact this
  have hcur' : sc'.screen_width + item.width < 2 ^ 32 := by
    rw [hsw]
    exact hcur
  by_cases hemp : s.scroll.tracks = []
  · have hemp' : sc'.tracks = [] :=
      List.length_eq_zero.mp (by rw [hlen, hemp, List.length_nil])
    refine ⟨sc', (none, { s with scroll := sc' }), hclear, ?_, ?_⟩
    · simp [DanmakuTrackState.insert, hty, hclear, ScrollDanmakuTrackState.find_track, hemp']
    · intro _ hne
      exact absurd hemp hne
  · have hne' : sc'.tracks ≠ [] := by
      intro hc
      exact hemp (List.length_eq_zero.mp (by rw [← hlen, hc, List.length_nil]))
    cases hmode : s.mode with
    | ShowAll =>
      obtain ⟨t, hft, htlt, hrot⟩ := scroll_find_track_show_all sc' item hne' hsc' hcur'
      refine ⟨sc', (some (.Scroll t), { s with scroll := sc'.insert t item }), hclear, ?_, ?_⟩
      · simp [DanmakuTrackState.insert, hty, hclear, hmode, hft]
      · intro _ _
        refine ⟨t, rfl, by rw [← hlen]; exact htlt, fun hfe => ?_⟩
        rw [← hidx, ← hlen]
        exact hrot hfe
    | NoOverlap percent =>
      obtain ⟨r, hr, -⟩ :=
        scrollFindFrom_spec sc'.screen_width sc'.lifetime item sc'.tracks 0 hsc' hcur'
      have hfe : sc'.find_empty_track item = some r := hr
      cases r with
      | some t =>
        refine ⟨sc', (some (.Scroll t), { s with scroll := sc'.insert t item }), hclear, ?_, ?_⟩
        · simp [DanmakuTrackState.insert, hty, hclear, hmode,
            ScrollDanmakuTrackState.find_track, hne', hfe]
        · intro hSA
          exact absurd hSA (by simp)
      | none =>
        refine ⟨sc', (none, { s with scroll := sc' }), hclear, ?_, ?_⟩
        · simp [DanmakuTrackState.insert, hty, hclear, hmode,
            ScrollDanmakuTrackState.find_track, hne', hfe]
        · intro hSA
          exact absurd hSA (by simp)

/-- **C8**: for every track state, inserting an item of type `Unknown` returns
`None` and leaves the entire state unchanged (no slot cleared or filled, no
rotation counter incremented); and under the no-panic arithmetic
preconditions (`InsertSafe`) `insert` always succeeds, so returning `None` is
its only failure mode. -/
theorem insert_unknown_and_no_other_failure :
    (∀ (s : DanmakuTrackState) (item : DanmakuItem), item.type = .Unknown →
      s.insert item = some (none, s)) ∧
    (∀ (s : DanmakuTrackState) (item : DanmakuItem), s.InsertSafe item →
      ∃ r, s.insert item = some r) := by
  constructor
  · intro s item h
    simp [DanmakuTrackState.insert, h]
  · intro s item hsafe
    obtain ⟨htop, hbot, hsc, hcur⟩ := hsafe
    cases hty : item.type with
    | Unknown => exact ⟨(none, s), by simp [DanmakuTrackState.insert, hty]⟩
    | Scroll =>
      obtain ⟨sc', res, -, hins, -⟩ := insert_scroll_case s item hty hsc hcur
      exact ⟨res, hins⟩
    | Top =>
      obtain ⟨st', hclear, -, -, -, -⟩ := static_clear_spec s.top item.time htop
      cases hft : st'.find_track s.mode with
      | some t =>
        exact ⟨(some (.Top t), { s with top := st'.insert t item }),
          by simp [DanmakuTrackState.insert, hty, hclear, hft]⟩
      | none =>
        exact ⟨(none, { s with top := st' }),
          by simp [DanmakuTrackState.insert, hty, hclear, hft]⟩
    | Bottom =>
      obtain ⟨st', hclear, -, -, -, -⟩ := static_clear_spec s.bottom item.time hbot
      cases hft : st'.find_track s.mode with
      | some t =>
        exact ⟨(some (.Bottom t), { s with bottom := st'.insert t item }),
          by simp [DanmakuTrackState.insert, hty, hclear, hft]⟩
      | none =>
        exact ⟨(none, { s with bottom := st' }),
          by simp [DanmakuTrackState.insert, hty, hclear, hft]⟩

/-- Witness for `insert_unknown_and_no_other_failure` at concrete inputs. -/
theorem insert_unknown_and_no_other_failure_witness :
    demoTrack.insert ⟨640, 100, .Unknown⟩ = some (none, demoTrack) ∧
    ∃ r, demoTrack.insert ⟨640, 100, .Scroll⟩ = some r :=
  ⟨insert_unknown_and_no_other_failure.1 demoTrack ⟨640, 100, .Unknown⟩ rfl,
   insert_unknown_and_no_other_failure.2 demoTrack ⟨640, 100, .Scroll⟩
     ⟨by intro it hit; simp [StaticOccupant, demoTrack] at hit,
      by intro it hit; simp [StaticOccupant, demoTrack] at hit,
      by intro it hit; simp [ScrollOccupant, demoTrack] at hit,
      by decide⟩⟩

/-- **C9**: a track state constructed with `ShowAll` and screen height at
least the line height has nonempty lane lists; inserting any
`Scroll`/`Top`/`Bottom` item into a `ShowAll` state with nonempty lanes (under
the no-panic arithmetic preconditions) always yields `Some` position whose
lane index is strictly below the corresponding track count, and when the scan
finds no empty or compatible lane the chosen lane is the rotation counter
modulo the track count. -/
theorem insert_show_all_total :
    (∀ (screen_size : ℕ × ℕ) (line_height lifetime : ℕ) (s : DanmakuTrackState),
      DanmakuTrackState.new .ShowAll screen_size line_height lifetime = some s →
      line_height ≤ screen_size.2 →
      s.mode = .ShowAll ∧ s.top.tracks ≠ [] ∧ s.bottom.tracks ≠ [] ∧
        s.scroll.tracks ≠ []) ∧
    (∀ (s : DanmakuTrackState) (item : DanmakuItem),
      s.mode = .ShowAll → s.top.tracks ≠ [] → s.bottom.tracks ≠ [] →
      s.scroll.tracks ≠ [] → s.InsertSafe item → item.type ≠ .Unknown →
      ∃ pos s', s.insert item = some (some pos, s') ∧
        (∀ t, pos = .Scroll t → t < s.scroll.tracks.length) ∧
        (∀ t, pos = .Top t → t < s.top.tracks.length) ∧
        (∀ t, pos = .Bottom t → t < s.bottom.tracks.length) ∧
        (∀ sc', item.type = .Scroll → s.scroll.clear_expired item.time = some sc' →
          sc'.find_empty_track item = some none →
          pos = .Scroll (s.scroll.index % s.scroll.tracks.length)) ∧
        (∀ st', item.type = .Top → s.top.clear_expired item.time = some st' →
          st'.find_empty_track = none →
          pos = .Top (s.top.index % s.top.tracks.length)) ∧
        (∀ st', item.type = .Bottom → s.bottom.clear_expired item.time = some st' →
          st'.find_empty_track = none →
          pos = .Bottom (s.bottom.index % s.bottom.tracks.length))) := by
  constructor
  · intro screen_size line_height lifetime s hnew hle
    unfold DanmakuTrackState.new at hnew
    split at hnew
    · exact Option.noConfusion hnew
    · rename_i hlh
      have hpos : 0 < screen_size.2 / line_height :=
        Nat.one_le_div_iff (Nat.pos_of_ne_zero hlh) |>.mpr hle
      cases hnew
      refine ⟨rfl, ?_, ?_, ?_⟩ <;>
        exact List.length_pos.mp (by simpa [StaticDanmakuTrackState.new,
          ScrollDanmakuTrackState.new] using hpos)
  · intro s item hmode htopne hbotne hscne hsafe hty
    obtain ⟨htop, hbot, hsc, hcur⟩ := hsafe
    cases hty' : item.type with
    | Unknown => exact absurd hty' hty
    | Scroll =>
      obtain ⟨sc', res, hclear, hins, hSA⟩ := insert_scroll_case s item hty' hsc hcur
      obtain ⟨t, hres, hlt, hrot⟩ := hSA hmode hscne
      obtain ⟨r1, r2⟩ := res
      simp only at hres
      subst hres
      refine ⟨.Scroll t, r2, hins, ?_, ?_, ?_, ?_, ?_, ?_⟩
      · intro t' ht'
        cases ht'
        exact hlt
      · intro t' ht'
        exact DanmakuPosition.noConfusion ht'
      · intro t' ht'
        exact DanmakuPosition.noConfusion ht'
      · intro sc'' _ hclear'' hfe
        rw [hclear] at hclear''
        cases hclear''
        rw [hrot hfe]
      · intro st' hc
        exact DanmakuType.noConfusion hc
      · intro st' hc
        exact DanmakuType.noConfusion hc
    | Top =>
      obtain ⟨st', hclear, -, hidx, hlen, -⟩ := static_clear_spec s.top item.time htop
      have hne' : st'.tracks ≠ [] :=
        fun hc => htopne (List.length_eq_zero.mp (by rw [← hlen, hc, List.length_nil]))
      obtain ⟨t, hft, hlt, hrot⟩ := static_find_track_show_all st' hne'
      refine ⟨.Top t, { s with top := st'.insert t item },
        by rw [← hmode] at hft; simp [DanmakuTrackState.insert, hty', hclear, hft],
        ?_, ?_, ?_, ?_, ?_, ?_⟩
      · intro t' ht'
        exact DanmakuPosition.noConfusion ht'
      · intro t' ht'
        cases ht'
        rw [← hlen]
        exact hlt
      · intro t' ht'
        exact DanmakuPosition.noConfusion ht'
      · intro sc'' hc
        exact DanmakuType.noConfusion hc
      · intro st'' _ hclear'' hfe
        rw [hclear] at hclear''
        cases hclear''
        rw [hrot hfe, hidx, hlen]
      · intro st'' hc
        exact DanmakuType.noConfusion hc
    | Bottom =>
      obtain ⟨st', hclear, -, hidx, hlen, -⟩ := static_clear_spec s.bottom item.time hbot
      have hne' : st'.tracks ≠ [] :=
        fun hc => hbotne (List.length_eq_zero.mp (by rw [← hlen, hc, List.length_nil]))
      obtain ⟨t, hft, hlt, hrot⟩ := static_find_track_show_all st' hne'
      refine ⟨.Bottom t, { s with bottom := st'.insert t item },
        by rw [← hmode] at hft; simp [DanmakuTrackState.insert, hty', hclear, hft],
        ?_, ?_, ?_, ?_, ?_, ?_⟩
      · intro t' ht'
        exact DanmakuPosition.noConfusion ht'
      · intro t' ht'
        exact DanmakuPosition.noConfusion ht'
      · intro t' ht'
        cases ht'
        rw [← hlen]
        exact hlt
      · intro sc'' hc
        exact DanmakuType.noConfusion hc
      · intro st'' hc
        exact DanmakuType.noConfusion hc
      · intro st'' _ hclear'' hfe
        rw [hclear] at hclear''
        cases hclear''
        rw [hrot hfe, hidx, hlen]

/-- Witness for `insert_show_all_total` at concrete inputs. -/
theorem insert_show_all_total_witness :
    (DanmakuTrackState.new .ShowAll (1280, 32) 32 1000 = some demoTrack ∧
      demoTrack.mode = .ShowAll ∧ demoTrack.top.tracks ≠ [] ∧
      demoTrack.bottom.tracks ≠ [] ∧ demoTrack.scroll.tracks ≠ []) ∧
    ∃ pos s', demoTrack.insert ⟨640, 100, .Scroll⟩ = some (some pos, s') := by
  have hnew : DanmakuTrackState.new .ShowAll (1280, 32) 32 1000 = some demoTrack := by
    decide
  have h1 := insert_show_all_total.1 (1280, 32) 32 1000 demoTrack hnew (by decide)
  obtain ⟨pos, s', hins, -⟩ := insert_show_all_total.2 demoTrack ⟨640, 100, .Scroll⟩
    h1.1 h1.2.1 h1.2.2.1 h1.2.2.2
    ⟨by intro it hit; simp [StaticOccupant, demoTrack] at hit,
     by intro it hit; simp [StaticOccupant, demoTrack] at hit,
     by intro it hit; simp [ScrollOccupant, demoTrack] at hit,
     by decide⟩
    (by decide)
  exact ⟨⟨hnew, h1⟩, pos, s', hins⟩

/-- **C10**: `DanmakuTime` subtraction is total exactly under `b ≤ a`, where
it yields the millisecond difference as a `Duration`; under the sorted-
insertion precondition (every stored occupant no later than the incoming
time) the `u32` subtractions inside `clear_expired` never underflow, and the
one inside `will_overlap` never underflows when the occupant is no later than
the candidate; for `a < b` the subtraction underflows (panics). -/
theorem danmaku_time_sub_safety :
    (∀ a b : ℕ, b ≤ a → DanmakuTime.sub a b = some (a - b)) ∧
    (∀ a b : ℕ, a < b → DanmakuTime.sub a b = none) ∧
    (∀ (s : StaticDanmakuTrackState) (now_time : ℕ),
      (∀ it, StaticOccupant s it → it.time ≤ now_time) →
      ∃ s', s.clear_expired now_time = some s') ∧
    (∀ (s : ScrollDanmakuTrackState) (now_time : ℕ),
      (∀ it, ScrollOccupant s it → it.time ≤ now_time) →
      ∃ s', s.clear_expired now_time = some s') ∧
    (∀ (t : ScrollDanmakuTrack) (screen_width lifetime : ℕ) (item : DanmakuItem),
      (∀ it, t.latest_danmaku_item = some it →
        it.time ≤ item.time ∧ screen_width + it.width < 2 ^ 32) →
      screen_width + item.width < 2 ^ 32 →
      ∃ b, t.will_overlap screen_width lifetime item = some b) := by
  refine ⟨?_, ?_, ?_, ?_, ?_⟩
  · intro a b h
    simp [DanmakuTime.sub, checkedSubU32, h]
  · intro a b h
    simp [DanmakuTime.sub, checkedSubU32, h]
  · intro s now_time h
    obtain ⟨s', hs', -⟩ := static_clear_spec s now_time h
    exact ⟨s', hs'⟩
  · intro s now_time h
    obtain ⟨s', hs', -⟩ := scroll_clear_spec s now_time h
    exact ⟨s', hs'⟩
  · intro t screen_width lifetime item h hcur
    exact will_overlap_isSome t screen_width lifetime item h hcur

/-- Witness for `danmaku_time_sub_safety` at concrete inputs. -/
theorem danmaku_time_sub_safety_witness :
    DanmakuTime.sub 7 3 = some 4 ∧ DanmakuTime.sub 3 7 = none ∧
    (∃ s', (⟨[some ⟨10, 5, .Top⟩], 1000, 1⟩ : StaticDanmakuTrackState).clear_expired
      2000 = some s') ∧
    (∃ s', (⟨[⟨some ⟨10, 5, .Scroll⟩⟩], 1000, 1280, 1⟩ :
      ScrollDanmakuTrackState).clear_expired 2000 = some s') ∧
    (∃ b, (⟨some ⟨10, 5, .Scroll⟩⟩ : ScrollDanmakuTrack).will_overlap 1280 1000
      ⟨20, 2000, .Scroll⟩ = some b) :=
  ⟨danmaku_time_sub_safety.1 7 3 (by decide),
   danmaku_time_sub_safety.2.1 3 7 (by decide),
   danmaku_time_sub_safety.2.2.1 _ 2000
     (by intro it hit; simp [StaticOccupant] at hit; subst hit; decide),
   danmaku_time_sub_safety.2.2.2.1 _ 2000
     (by rintro it ⟨tr, htr, hit⟩; simp at htr; subst htr; simp at hit; subst hit; decide),
   danmaku_time_sub_safety.2.2.2.2 _ 1280 1000 ⟨20, 2000, .Scroll⟩
     (by intro it hit; simp at hit; subst hit; decide) (by decide)⟩

/-- **C1**: with the `f64` arithmetic idealised as exact rationals, a scroll
lane's compatibility test — `will_overlap` returning `false` — holds exactly
when the two spec conditions hold: the previous item's tail has fully entered
the screen (`d ≥ 0`) and the current item never overtakes it
(`speed_prev ≥ speed_cur`, or catch-up time at least the traversal time
`W / speed_cur`); and a lane with no occupant is always compatible. -/
theorem will_overlap_lane_compatibility (screen_width lifetime : ℕ)
    (last cur : DanmakuItem) (_hL : 0 < lifetime)
    (hlast : screen_width + last.width < 2 ^ 32)
    (hcur : screen_width + cur.width < 2 ^ 32)
    (ht : last.time ≤ cur.time) :
    ((⟨some last⟩ : ScrollDanmakuTrack).will_overlap screen_width lifetime cur
        = some false ↔ specLaneCompatible screen_width lifetime last cur) ∧
    (⟨none⟩ : ScrollDanmakuTrack).will_overlap screen_width lifetime cur
        = some false := by
  refine ⟨?_, rfl⟩
  have hval1 : ((screen_width + last.width : ℕ) : ℚ) =
      (screen_width : ℚ) + last.width := by
    push_cast
    ring
  have hval2 : ((screen_width + cur.width : ℕ) : ℚ) =
      (screen_width : ℚ) + cur.width := by
    push_cast
    ring
  have hval3 : ((cur.time - last.time : ℕ) : ℚ) =
      (cur.time : ℚ) - last.time := by
    exact Nat.cast_sub ht
  simp only [ScrollDanmakuTrack.will_overlap, checkedAddU32, checkedSubU32, hlast, hcur, ht,
    if_true, Option.bind_eq_bind, Option.some_bind, if_pos, specLaneCompatible, specSpeed,
    hval1, hval2, hval3]
  set sl : ℚ := ((screen_width : ℚ) + last.width) / lifetime with hsl
  set sc : ℚ := ((screen_width : ℚ) + cur.width) / lifetime with hsc
  set d : ℚ := sl * ((cur.time : ℚ) - last.time) - last.width with hd
  split_ifs with h1 h2 h3
  · exact iff_of_false (by simp) fun hcomp => absurd h1 (not_lt.mpr hcomp.1)
  · exact iff_of_true rfl ⟨not_lt.mp h1, Or.inl h2.le⟩
  · exact iff_of_true rfl ⟨not_lt.mp h1, Or.inl h3.ge⟩
  · have hlt : sl < sc := lt_of_le_of_ne (not_lt.mp h2) h3
    simp only [Option.pure_def, Option.some.injEq, decide_eq_false_iff_not, not_lt]
    constructor
    · intro h
      exact ⟨not_lt.mp h1, Or.inr h⟩
    · rintro ⟨-, h | h⟩
      · exact absurd h (not_le.mpr hlt)
      · exact h

/-- Witness for `will_overlap_lane_compatibility`: spec scenario B’s
parameters (screen 1280, lifetime 8000 ms, both items 640 px wide, arrivals
0 ms and 100 ms). -/
theorem will_overlap_lane_compatibility_witness :
    (0 < 8000 ∧ 1280 + 640 < 2 ^ 32 ∧ (0 : ℕ) ≤ 100) ∧
    ((⟨some ⟨640, 0, .Scroll⟩⟩ : ScrollDanmakuTrack).will_overlap 1280 8000
        ⟨640, 100, .Scroll⟩ = some false ↔
      specLaneCompatible 1280 8000 ⟨640, 0, .Scroll⟩ ⟨640, 100, .Scroll⟩) ∧
    (⟨none⟩ : ScrollDanmakuTrack).will_overlap 1280 8000 ⟨640, 100, .Scroll⟩
        = some false :=
  ⟨⟨by decide, by decide, by decide⟩,
   will_overlap_lane_compatibility 1280 8000 ⟨640, 0, .Scroll⟩ ⟨640, 100, .Scroll⟩
     (by decide) (by decide) (by decide) (by decide)⟩

/-- Looking up the erased key yields nothing. -/
theorem lookup_mapErase_self {α : Type} (m : List (ℕ × α)) (k : ℕ) :
    List.lookup k (mapErase m k) = none := by
  induction m with
  | nil => rfl
  | cons e rest ih =>
    obtain ⟨a, v⟩ := e
    rw [mapErase, List.filter_cons]
    by_cases h : a = k
    · rw [if_neg (by simp [h])]
      exact ih
    · rw [if_pos (by simp [h]), List.lookup_cons]
      have hbeq : (k == a) = false := by simp [Ne.symm h]
      rw [hbeq]
      exact ih

/-- Erasing one key leaves every other key's binding unchanged. -/
theorem lookup_mapErase_ne {α : Type} (m : List (ℕ × α)) (k j : ℕ) (h : j ≠ k) :
    List.lookup j (mapErase m k) = List.lookup j m := by
  induction m with
  | nil => rfl
  | cons e rest ih =>
    obtain ⟨a, v⟩ := e
    rw [mapErase, List.filter_cons]
    by_cases he : a = k
    · rw [if_neg (by simp [he]), List.lookup_cons]
      have hbeq : (j == a) = false := by simp [he, h]
      rw [hbeq]
      exact ih
    · rw [if_pos (by simp [he]), List.lookup_cons, List.lookup_cons]
      cases hje : j == a
      · exact ih
      · rfl

/-- Inserting binds the inserted key. -/
theorem lookup_mapInsert_self {α : Type} (m : List (ℕ × α)) (k : ℕ) (v : α) :
    List.lookup k (mapInsert m k v) = some v := by
  simp [mapInsert, List.lookup_cons]

/-- Inserting one key leaves every other key's binding unchanged. -/
theorem lookup_mapInsert_ne {α : Type} (m : List (ℕ × α)) (k j : ℕ) (v : α) (h : j ≠ k) :
    List.lookup j (mapInsert m k v) = List.lookup j m := by
  rw [mapInsert, List.lookup_cons]
  have : (j == k) = false := by simp [h]
  rw [this, lookup_mapErase_ne m k j h]

/-- The binary-search loop, with enough fuel and a sorted-interval invariant on
`right`: a hit is an in-bounds index whose time equals the key; a miss is the
length or an index whose time exceeds the key. -/
theorem binarySearchGo_spec (source : List Danmaku) (time : ℕ) :
    ∀ (fuel left right : ℕ), right - left ≤ fuel → left ≤ right →
    right ≤ source.length →
    (right = source.length ∨ time < (source.getD right defaultDanmaku).time) →
    (∀ i, binarySearchGo source time fuel left right = .inl i →
      i < source.length ∧ (source.getD i defaultDanmaku).time = time) ∧
    (∀ l, binarySearchGo source time fuel left right = .inr l →
      l = source.length ∨
        (l < source.length ∧ time < (source.getD l defaultDanmaku).time)) := by
  intro fuel
  induction fuel with
  | zero =>
    intro left right hfuel hlr hrlen hinv
    have hleft : left = right := by omega
    constructor
    · intro i hi
      exact Sum.noConfusion hi
    · intro l hl
      rw [binarySearchGo] at hl
      cases hl
      rcases Nat.lt_or_ge right source.length with hc | hc
      · rcases hinv with h | h
        · omega
        · exact Or.inr ⟨hleft ▸ hc, hleft ▸ h⟩
      · exact Or.inl (by omega)
    | succ fuel ih =>
    intro left right hfuel hlr hrlen hinv
    rw [binarySearchGo]
    by_cases hlt : left < right
    · rw [if_pos hlt]
      have hmid1 : left ≤ left + (right - left) / 2 := Nat.le_add_right _ _
      have hmid2 : left + (right - left) / 2 < right := by omega
      by_cases hless : (source.getD (left + (right - left) / 2) defaultDanmaku).time < time
      · rw [if_pos hless]
        exact ih (left + (right - left) / 2 + 1) right (by omega) (by omega) hrlen hinv
      · rw [if_neg hless]
        by_cases hgreater : time < (source.getD (left + (right - left) / 2) defaultDanmaku).time
        · rw [if_pos hgreater]
          exact ih left (left + (right - left) / 2) (by omega) (by omega) (by omega)
            (Or.inr hgreater)
        · rw [if_neg hgreater]
          constructor
          · intro i hi
            cases hi
            exact ⟨by omega, by omega⟩
          · intro l hl
            exact Sum.noConfusion hl
    · rw [if_neg hlt]
      have hleft : left = right := by omega
      constructor
      · intro i hi
        exact Sum.noConfusion hi
      · intro l hl
        cases hl
        rcases Nat.lt_or_ge right source.length with hc | hc
        · rcases hinv with h | h
          · omega
          · exact Or.inr ⟨hleft ▸ hc, hleft ▸ h⟩
        · exact Or.inl (by omega)

/-- In a sorted source, every index at or past the start index computed by
`find_index` has time at least the key. -/
theorem find_index_start_bound (source : List Danmaku) (time : ℕ)
    (hs : SortedByTime source) :
    ∀ j, (match find_index source time with | .inl i => i | .inr i => i) ≤ j →
      j < source.length → time ≤ (source.getD j defaultDanmaku).time := by
  have hmono : ∀ i j, i ≤ j → j < source.length →
      (source.getD i defaultDanmaku).time ≤ (source.getD j defaultDanmaku).time := by
    intro i j hij hj
    rcases Nat.lt_or_ge i j with hlt | hge
    · have hi : i < source.length := lt_trans hlt hj
      have := (List.pairwise_iff_get.mp hs) ⟨i, hi⟩ ⟨j, hj⟩ hlt
      rwa [List.getD_eq_get _ _ hi, List.getD_eq_get _ _ hj]
    · have : i = j := le_antisymm hij hge
      rw [this]
  have hspec := binarySearchGo_spec source time source.length 0 source.length
    (by omega) (Nat.zero_le _) le_rfl (Or.inl rfl)
  intro j hj hjlen
  unfold find_index at hj
  cases hfi : binarySearchGo source time source.length 0 source.length with
  | inl i =>
    rw [hfi] at hj
    obtain ⟨hilen, hieq⟩ := hspec.1 i hfi
    calc time = (source.getD i defaultDanmaku).time := hieq.symm
      _ ≤ (source.getD j defaultDanmaku).time := hmono i j hj hjlen
  | inr l =>
    rw [hfi] at hj
    have hj' : l ≤ j := hj
    rcases hspec.2 l hfi with hlen | ⟨hllen, hlt⟩
    · omega
    · calc time ≤ (source.getD l defaultDanmaku).time := hlt.le
        _ ≤ (source.getD j defaultDanmaku).time := hmono l j hj' hjlen

/-- The iterator model only yields elements of the remaining suffix, all with
time below the exclusive end. -/
theorem iterCollect_spec (end_excluded : ℕ) :
    ∀ (suffix l : List Danmaku), iterCollect end_excluded suffix = some l →
      ∀ d ∈ l, d ∈ suffix ∧ d.time < end_excluded := by
  intro suffix
  induction suffix with
  | nil => intro l hl; exact Option.noConfusion hl
  | cons item rest ih =>
    intro l hl d hd
    rw [iterCollect] at hl
    split at hl
    · cases hl
      exact absurd hd (List.not_mem_nil d)
    · rename_i hnle
      cases hrest : iterCollect end_excluded rest with
      | none => rw [hrest] at hl; exact Option.noConfusion hl
      | some l' =>
        rw [hrest] at hl
        cases hl
        rcases List.mem_cons.mp hd with hd | hd
        · exact ⟨hd ▸ List.mem_cons_self _ _, hd ▸ (by omega)⟩
        · obtain ⟨hmem, hlt⟩ := ih l' hrest d hd
          exact ⟨List.mem_cons_of_mem _ hmem, hlt⟩

/-- `get_range` on a sorted source yields only comments in `[s, e)`. -/
theorem get_range_bounds (source : List Danmaku) (hs : SortedByTime source)
    (start_included end_excluded : ℕ) (l : List Danmaku)
    (h : get_range source start_included end_excluded = some l) :
    ∀ d ∈ l, start_included ≤ d.time ∧ d.time < end_excluded := by
  intro d hd
  rw [get_range] at h
  obtain ⟨hmem, hlt⟩ := iterCollect_spec end_excluded _ l h d hd
  refine ⟨?_, hlt⟩
  obtain ⟨⟨j, hjlen⟩, hget⟩ := List.mem_iff_get.mp hmem
  rw [List.get_drop'] at hget
  have hjlen' := hjlen
  rw [List.length_drop] at hjlen'
  have hstart := find_index_start_bound source start_included hs
    ((match find_index source start_included with | .inl i => i | .inr i => i) + j)
    (Nat.le_add_right _ _) (by omega)
  rw [← hget]
  rw [List.getD_eq_get _ _ (by omega)] at hstart
  simpa using hstart

/-- Folding glyph-key insertion over a list equals union with its finset. -/
theorem foldl_insert_eq_union (gs : List ℕ) (acc : Finset ℕ) :
    gs.foldl (fun s k => insert k s) acc = acc ∪ gs.toFinset := by
  induction gs generalizing acc with
  | nil => simp
  | cons g rest ih =>
    rw [List.foldl_cons, ih (insert g acc), List.toFinset_cons, Finset.union_insert,
      Finset.insert_union]

/-- `chunkGlyphUnion` over an appended item. -/
theorem chunkGlyphUnion_append (items : List PositionedDanmakuItem)
    (x : PositionedDanmakuItem) :
    chunkGlyphUnion (items ++ [x]) =
      chunkGlyphUnion items ∪ x.item.physical_glyphs.toFinset := by
  simp [chunkGlyphUnion, List.foldl_append]

/-- Every item accumulated by the generation loop either was already in the
accumulator or carries the time of one of the processed comments. -/
theorem generateItems_times (shaper : Shaper) (lo hi : ℕ) :
    ∀ (ds : List Danmaku) (items : List PositionedDanmakuItem) (glyphs : Finset ℕ)
      (st : DanmakuTrackState)
      (res : List PositionedDanmakuItem × Finset ℕ × DanmakuTrackState),
    (∀ d ∈ ds, lo ≤ d.time ∧ d.time < hi) →
    (∀ x ∈ items, lo ≤ x.item.time ∧ x.item.time < hi) →
    generateItems shaper ds items glyphs st = some res →
    ∀ x ∈ res.1, lo ≤ x.item.time ∧ x.item.time < hi := by
  intro ds
  induction ds with
  | nil =>
    intro items glyphs st res _ hacc h
    cases h
    exact hacc
  | cons d rest ih =>
    intro items glyphs st res hds hacc h
    rw [generateItems] at h
    cases hlay : LayoutedDanmakuItem.new shaper d with
    | none =>
      rw [hlay] at h
      exact ih items glyphs st res (fun x hx => hds x (List.mem_cons_of_mem _ hx)) hacc h
    | some layouted =>
      rw [hlay] at h
      dsimp only at h
      have htime : layouted.time = d.time := by
        rw [LayoutedDanmakuItem.new] at hlay
        cases hsh : shaper d with
        | none => rw [hsh] at hlay; exact Option.noConfusion hlay
        | some wg =>
          rw [hsh] at hlay
          cases hlay
          rfl
      cases hins : (DanmakuTrackState.insert st (DanmakuItem.ofLayouted layouted)) with
      | none => rw [hins] at h; exact Option.noConfusion h
      | some rs =>
        rw [hins] at h
        simp only [Option.bind_eq_bind, Option.some_bind] at h
        obtain ⟨result, st'⟩ := rs
        cases result with
        | some position =>
          refine ih _ _ st' res (fun x hx => hds x (List.mem_cons_of_mem _ hx)) ?_ h
          intro x hx
          rcases List.mem_append.mp hx with hx | hx
          · exact hacc x hx
          · have hx' : x = ⟨layouted, position⟩ := List.mem_singleton.mp hx
            rw [hx']
            simpa [htime] using hds d (List.mem_cons_self _ _)
        | none =>
          exact ih items glyphs st' res (fun x hx => hds x (List.mem_cons_of_mem _ hx)) hacc h

/-- The generation loop maintains `glyphs = chunkGlyphUnion items`. -/
theorem generateItems_glyphs (shaper : Shaper) :
    ∀ (ds : List Danmaku) (items : List PositionedDanmakuItem) (glyphs : Finset ℕ)
      (st : DanmakuTrackState)
      (res : List PositionedDanmakuItem × Finset ℕ × DanmakuTrackState),
    glyphs = chunkGlyphUnion items →
    generateItems shaper ds items glyphs st = some res →
    res.2.1 = chunkGlyphUnion res.1 := by
  intro ds
  induction ds with
  | nil =>
    intro items glyphs st res hacc h
    cases h
    exact hacc
  | cons d rest ih =>
    intro items glyphs st res hacc h
    rw [generateItems] at h
    cases hlay : LayoutedDanmakuItem.new shaper d with
    | none =>
      rw [hlay] at h
      exact ih items glyphs st res hacc h
    | some layouted =>
      rw [hlay] at h
      dsimp only at h
      cases hins : (DanmakuTrackState.insert st (DanmakuItem.ofLayouted layouted)) with
      | none => rw [hins] at h; exact Option.noConfusion h
      | some rs =>
        rw [hins] at h
        simp only [Option.bind_eq_bind, Option.some_bind] at h
        obtain ⟨result, st'⟩ := rs
        cases result with
        | some position =>
          refine ih _ _ st' res ?_ h
          rw [foldl_insert_eq_union, chunkGlyphUnion_append, hacc]
        | none =>
          exact ih items glyphs st' res hacc h

/-- The chunk built by `generate_chunk` records the supplied
`base_state_index` and `index`. -/
theorem generate_chunk_base (p : DanmakuTimeChunkProvider) (shaper : Shaper)
    (b : ℕ) (st : DanmakuTrackState) (index : ℕ) (chunk : DanmakuTimeChunk)
    (st' : DanmakuTrackState)
    (h : p.generate_chunk shaper b st index = some (chunk, st')) :
    chunk.base_state_index = b ∧ chunk.index = index := by
  rw [DanmakuTimeChunkProvider.generate_chunk] at h
  cases hm : checkedMulU32 p.lifetime index with
  | none => rw [hm] at h; simp at h
  | some start =>
    rw [hm] at h
    simp only [Option.bind_eq_bind, Option.some_bind] at h
    cases ha : checkedAddU32 start p.lifetime with
    | none => rw [ha] at h; simp at h
    | some endm =>
      rw [ha] at h
      simp only [Option.bind_eq_bind, Option.some_bind] at h
      cases hr : get_range p.source start endm with
      | none => rw [hr] at h; simp at h
      | some range =>
        rw [hr] at h
        simp only [Option.bind_eq_bind, Option.some_bind] at h
        cases hg : generateItems shaper range [] ∅ st with
        | none => rw [hg] at h; simp at h
        | some res =>
          rw [hg] at h
          simp only [Option.bind_eq_bind, Option.some_bind] at h
          obtain ⟨items, glyphs, stf⟩ := res
          cases h
          exact ⟨rfl, rfl⟩

/-- On a sorted source, `generate_chunk` produces a chunk whose items lie in
the chunk's half-open time window and whose glyph set is the union of the
items' glyph keys. -/
theorem generate_chunk_spec (p : DanmakuTimeChunkProvider) (shaper : Shaper)
    (b : ℕ) (st : DanmakuTrackState) (index : ℕ) (chunk : DanmakuTimeChunk)
    (st' : DanmakuTrackState) (hs : SortedByTime p.source)
    (h : p.generate_chunk shaper b st index = some (chunk, st')) :
    chunk.base_state_index = b ∧ chunk.index = index ∧
    (∀ it ∈ chunk.items, index * p.lifetime ≤ it.item.time ∧
      it.item.time < (index + 1) * p.lifetime) ∧
    chunk.glyph_ids = chunkGlyphUnion chunk.items := by
  rw [DanmakuTimeChunkProvider.generate_chunk] at h
  cases hm : checkedMulU32 p.lifetime index with
  | none => rw [hm] at h; simp at h
  | some start =>
    rw [hm] at h
    simp only [Option.bind_eq_bind, Option.some_bind] at h
    have hstart : start = p.lifetime * index := by
      rw [checkedMulU32] at hm
      split at hm
      · cases hm; rfl
      · exact Option.noConfusion hm
    cases ha : checkedAddU32 start p.lifetime with
    | none => rw [ha] at h; simp at h
    | some endm =>
      rw [ha] at h
      simp only [Option.bind_eq_bind, Option.some_bind] at h
      have hend : endm = start + p.lifetime := by
        rw [checkedAddU32] at ha
        split at ha
        · cases ha; rfl
        · exact Option.noConfusion ha
      cases hr : get_range p.source start endm with
      | none => rw [hr] at h; simp at h
      | some range =>
        rw [hr] at h
        simp only [Option.bind_eq_bind, Option.some_bind] at h
        cases hg : generateItems shaper range [] ∅ st with
        | none => rw [hg] at h; simp at h
        | some res =>
          rw [hg] at h
          simp only [Option.bind_eq_bind, Option.some_bind] at h
          obtain ⟨items, glyphs, stf⟩ := res
          cases h
          have hbounds := get_range_bounds p.source hs start endm range hr
          refine ⟨rfl, rfl, ?_, ?_⟩
          · intro it hit
            have := generateItems_times shaper start endm range [] ∅ st
              (items, glyphs, stf) hbounds (by simp) hg it hit
            constructor
            · calc index * p.lifetime = start := by rw [hstart, Nat.mul_comm]
                _ ≤ it.item.time := this.1
            · calc it.item.time < endm := this.2
                _ = (index + 1) * p.lifetime := by rw [hend, hstart]; ring
          · exact generateItems_glyphs shaper range [] ∅ st (items, glyphs, stf)
              (by simp [chunkGlyphUnion]) hg

/-- Under a cache miss (no cached chunk at `index`, or a hint mismatch),
`get_chunk` is the regeneration path. -/
theorem get_chunk_miss (shaper : Shaper) (p : DanmakuTimeChunkProvider)
    (hint : Option ℕ) (index : ℕ)
    (hmiss : ∀ c', List.lookup index p.chunks = some c' →
      ∃ hnt, hint = some hnt ∧ c'.base_state_index ≠ hnt) :
    p.get_chunk shaper hint index = p.regenerate shaper index := by
  rw [DanmakuTimeChunkProvider.get_chunk.eq_def]
  cases hc : List.lookup index p.chunks with
  | none => cases hint <;> rfl
  | some c =>
    obtain ⟨hnt, hh, hne⟩ := hmiss c hc
    subst hh
    dsimp only
    rw [if_neg hne]

/-- The regeneration path caches the produced chunk under its index. -/
theorem regenerate_chunks_cache (shaper : Shaper) (p : DanmakuTimeChunkProvider)
    (index : ℕ) (c : DanmakuTimeChunk) (p' : DanmakuTimeChunkProvider)
    (h : p.regenerate shaper index = some (c, p')) :
    p'.chunks = mapInsert p.chunks index c := by
  rw [DanmakuTimeChunkProvider.regenerate] at h
  dsimp only at h
  cases hstored : (if index ≠ 0 then List.lookup (index - 1) p.states else none) with
  | some e =>
    obtain ⟨b, st⟩ := e
    rw [hstored] at h
    simp only [Option.bind_eq_bind, Option.some_bind] at h
    cases hgen : p.generate_chunk shaper b st index with
    | none => rw [hgen] at h; simp at h
    | some r =>
      obtain ⟨chunk, stf⟩ := r
      rw [hgen] at h
      simp only [Option.bind_eq_bind, Option.some_bind] at h
      cases h
      rfl
  | none =>
    rw [hstored] at h
    simp only [Option.bind_eq_bind, Option.none_bind] at h
    cases hnew : DanmakuTrackState.new p.layout_mode p.screen_size p.line_height
        p.lifetime with
    | none => rw [hnew] at h; simp at h
    | some fresh =>
      rw [hnew] at h
      simp only [Option.bind_eq_bind, Option.some_bind] at h
      cases hgen : p.generate_chunk shaper index fresh index with
      | none => rw [hgen] at h; simp at h
      | some r =>
        obtain ⟨chunk, stf⟩ := r
        rw [hgen] at h
        simp only [Option.bind_eq_bind, Option.some_bind] at h
        cases h
        rfl

/-- **C4**: the cache/state-reuse contract of `get_chunk`.  (1) A cached chunk
at `index` whose `base_state_index` matches the hint — or any cached chunk
when the hint is absent — is returned unchanged, with the provider state
untouched.  (2) On a cache miss with `index ≠ 0` and a stored state entry at
`index - 1`, that entry is consumed: the produced chunk bears its
`base_state_index`, the entry is removed, and a new entry is stored at
`index`.  (3) On a cache miss with no such entry (or `index = 0`), a fresh
track state is started and the produced chunk's `base_state_index` equals
`index`. -/
theorem get_chunk_cache_and_state_reuse (shaper : Shaper)
    (p : DanmakuTimeChunkProvider) (hint : Option ℕ) (index : ℕ) :
    (∀ c, List.lookup index p.chunks = some c →
      (hint = none ∨ hint = some c.base_state_index) →
      p.get_chunk shaper hint index = some (c, p)) ∧
    (∀ b st c p',
      (∀ c', List.lookup index p.chunks = some c' →
        ∃ hnt, hint = some hnt ∧ c'.base_state_index ≠ hnt) →
      index ≠ 0 → List.lookup (index - 1) p.states = some (b, st) →
      p.get_chunk shaper hint index = some (c, p') →
      c.base_state_index = b ∧ List.lookup (index - 1) p'.states = none ∧
      ∃ st', List.lookup index p'.states = some (b, st')) ∧
    (∀ c p',
      (∀ c', List.lookup index p.chunks = some c' →
        ∃ hnt, hint = some hnt ∧ c'.base_state_index ≠ hnt) →
      (index = 0 ∨ List.lookup (index - 1) p.states = none) →
      p.get_chunk shaper hint index = some (c, p') →
      c.base_state_index = index ∧
      ∃ st', List.lookup index p'.states = some (index, st')) := by
  refine ⟨?_, ?_, ?_⟩
  · intro c hc hh
    rcases hh with hh | hh <;> subst hh <;>
      simp [DanmakuTimeChunkProvider.get_chunk, hc]
  · intro b st c p' hmiss hidx hstored hget
    rw [get_chunk_miss shaper p hint index hmiss] at hget
    rw [DanmakuTimeChunkProvider.regenerate] at hget
    dsimp only at hget
    rw [if_pos hidx, if_pos hidx, hstored] at hget
    simp only [Option.bind_eq_bind, Option.some_bind] at hget
    cases hgen : p.generate_chunk shaper b st index with
    | none => rw [hgen] at hget; simp at hget
    | some r =>
      obtain ⟨chunk, stf⟩ := r
      rw [hgen] at hget
      simp only [Option.bind_eq_bind, Option.some_bind] at hget
      have hb := (generate_chunk_base p shaper b st index chunk stf hgen).1
      have hl1 : List.lookup (index - 1)
          (mapInsert (mapErase p.states (index - 1)) index (b, stf)) = none := by
        rw [lookup_mapInsert_ne _ _ _ _ (by omega), lookup_mapErase_self]
      have hl2 := lookup_mapInsert_self (mapErase p.states (index - 1)) index (b, stf)
      cases hget
      exact ⟨hb, hl1, stf, hl2⟩
  · intro c p' hmiss hz hget
    rw [get_chunk_miss shaper p hint index hmiss] at hget
    rw [DanmakuTimeChunkProvider.regenerate] at hget
    dsimp only at hget
    have hstored : (if index ≠ 0 then List.lookup (index - 1) p.states else none) =
        none := by
      rcases hz with hz | hz
      · rw [if_neg (by omega)]
      · split
        · exact hz
        · rfl
    rw [hstored] at hget
    simp only [Option.bind_eq_bind, Option.none_bind] at hget
    cases hnew : DanmakuTrackState.new p.layout_mode p.screen_size p.line_height
        p.lifetime with
    | none => rw [hnew] at hget; simp at hget
    | some fresh =>
      rw [hnew] at hget
      simp only [Option.bind_eq_bind, Option.some_bind] at hget
      cases hgen : p.generate_chunk shaper index fresh index with
      | none => rw [hgen] at hget; simp at hget
      | some r =>
        obtain ⟨chunk, stf⟩ := r
        rw [hgen] at hget
        simp only [Option.bind_eq_bind, Option.some_bind] at hget
        have hb := (generate_chunk_base p shaper index fresh index chunk stf hgen).1
        have hl2 := lookup_mapInsert_self
          (if index ≠ 0 then mapErase p.states (index - 1) else p.states) index
          (index, stf)
        cases hget
        exact ⟨hb, stf, hl2⟩

/-- **C6** (amended): immediately repeating a `get_chunk` call returns the
identical chunk with the provider unchanged, provided the hint is absent or
equals the first returned chunk's `base_state_index`; with any other hint the
second call regenerates and need not match (see the counterexample). -/
theorem get_chunk_repeat_equal (shaper : Shaper) (p : DanmakuTimeChunkProvider)
    (hint : Option ℕ) (index : ℕ) (c : DanmakuTimeChunk)
    (p' : DanmakuTimeChunkProvider)
    (h : p.get_chunk shaper hint index = some (c, p'))
    (hh : hint = none ∨ hint = some c.base_state_index) :
    p'.get_chunk shaper hint index = some (c, p') := by
  have hcache : List.lookup index p'.chunks = some c := by
    rw [DanmakuTimeChunkProvider.get_chunk.eq_def] at h
    cases hc : List.lookup index p.chunks with
    | some c0 =>
      rw [hc] at h
      cases hint with
      | none =>
        dsimp only at h
        cases h
        exact hc
      | some hnt =>
        dsimp only at h
        split at h
        · cases h
          exact hc
        · rw [regenerate_chunks_cache shaper p index c p' h]
          exact lookup_mapInsert_self _ _ _
    | none =>
      rw [hc] at h
      have hre : p.regenerate shaper index = some (c, p') := by
        cases hint with
        | none => exact h
        | some hnt => exact h
      rw [regenerate_chunks_cache shaper p index c p' hre]
      exact lookup_mapInsert_self _ _ _
  rcases hh with hh | hh <;> subst hh <;>
    simp [DanmakuTimeChunkProvider.get_chunk, hcache]

/-- The regeneration path preserves the provider invariant and produces an
invariant-satisfying chunk stored under `index`. -/
theorem regenerate_invariant (shaper : Shaper) (p : DanmakuTimeChunkProvider)
    (index : ℕ) (c : DanmakuTimeChunk) (p' : DanmakuTimeChunkProvider)
    (hsort : SortedByTime p.source)
    (hchunks : ∀ k c0, List.lookup k p.chunks = some c0 →
      c0.index = k ∧ ChunkOK p.lifetime c0)
    (hstates : ∀ k b st, List.lookup k p.states = some (b, st) → b ≤ k)
    (h : p.regenerate shaper index = some (c, p')) :
    (ChunkOK p.lifetime c ∧ c.index = index) ∧ ProviderInv p' := by
  rw [DanmakuTimeChunkProvider.regenerate] at h
  dsimp only at h
  cases hstored : (if index ≠ 0 then List.lookup (index - 1) p.states else none) with
  | some e =>
    obtain ⟨b, st⟩ := e
    have hb : b ≤ index := by
      by_cases hidx : index ≠ 0
      · rw [if_pos hidx] at hstored
        have := hstates (index - 1) b st hstored
        omega
      · rw [if_neg hidx] at hstored
        exact Option.noConfusion hstored
    rw [hstored] at h
    simp only [Option.bind_eq_bind, Option.some_bind] at h
    cases hgen : p.generate_chunk shaper b st index with
    | none => rw [hgen] at h; simp at h
    | some r =>
      obtain ⟨chunk, stf⟩ := r
      rw [hgen] at h
      simp only [Option.bind_eq_bind, Option.some_bind] at h
      obtain ⟨hcb, hci, htimes, hglyphs⟩ :=
        generate_chunk_spec p shaper b st index chunk stf hsort hgen
      have hok : ChunkOK p.lifetime chunk := by
        refine ⟨?_, ?_, hglyphs⟩
        · intro it hit
          rw [hci]
          exact htimes it hit
        · rw [hcb, hci]
          exact hb
      have hchunks' : ∀ k c0,
          List.lookup k (mapInsert p.chunks index chunk) = some c0 →
          c0.index = k ∧ ChunkOK p.lifetime c0 := by
        intro k c0 hk
        by_cases hkidx : k = index
        · subst hkidx
          rw [lookup_mapInsert_self] at hk
          cases hk
          exact ⟨hci, hok⟩
        · rw [lookup_mapInsert_ne _ _ _ _ hkidx] at hk
          exact hchunks k c0 hk
      have hstates' : ∀ k b0 st0,
          List.lookup k (mapInsert
            (if index ≠ 0 then mapErase p.states (index - 1) else p.states)
            index (b, stf)) = some (b0, st0) → b0 ≤ k := by
        intro k b0 st0 hk
        by_cases hkidx : k = index
        · subst hkidx
          rw [lookup_mapInsert_self] at hk
          cases hk
          exact hb
        · rw [lookup_mapInsert_ne _ _ _ _ hkidx] at hk
          split at hk
          · by_cases hk1 : k = index - 1
            · subst hk1
              rw [lookup_mapErase_self] at hk
              exact Option.noConfusion hk
            · rw [lookup_mapErase_ne _ _ _ hk1] at hk
              exact hstates k b0 st0 hk
          · exact hstates k b0 st0 hk
      cases h
      exact ⟨⟨hok, hci⟩, hsort, hchunks', hstates'⟩
  | none =>
    rw [hstored] at h
    simp only [Option.bind_eq_bind, Option.none_bind] at h
    cases hnew : DanmakuTrackState.new p.layout_mode p.screen_size p.line_height
        p.lifetime with
    | none => rw [hnew] at h; simp at h
    | some fresh =>
      rw [hnew] at h
      simp only [Option.bind_eq_bind, Option.some_bind] at h
      cases hgen : p.generate_chunk shaper index fresh index with
      | none => rw [hgen] at h; simp at h
      | some r =>
        obtain ⟨chunk, stf⟩ := r
        rw [hgen] at h
        simp only [Option.bind_eq_bind, Option.some_bind] at h
        obtain ⟨hcb, hci, htimes, hglyphs⟩ :=
          generate_chunk_spec p shaper index fresh index chunk stf hsort hgen
        have hok : ChunkOK p.lifetime chunk := by
          refine ⟨?_, ?_, hglyphs⟩
          · intro it hit
            rw [hci]
            exact htimes it hit
          · rw [hcb, hci]
        have hchunks' : ∀ k c0,
            List.lookup k (mapInsert p.chunks index chunk) = some c0 →
            c0.index = k ∧ ChunkOK p.lifetime c0 := by
          intro k c0 hk
          by_cases hkidx : k = index
          · subst hkidx
            rw [lookup_mapInsert_self] at hk
            cases hk
            exact ⟨hci, hok⟩
          · rw [lookup_mapInsert_ne _ _ _ _ hkidx] at hk
            exact hchunks k c0 hk
        have hstates' : ∀ k b0 st0,
            List.lookup k (mapInsert
              (if index ≠ 0 then mapErase p.states (index - 1) else p.states)
              index (index, stf)) = some (b0, st0) → b0 ≤ k := by
          intro k b0 st0 hk
          by_cases hkidx : k = index
          · subst hkidx
            rw [lookup_mapInsert_self] at hk
            cases hk
            exact le_rfl
          · rw [lookup_mapInsert_ne _ _ _ _ hkidx] at hk
            split at hk
            · by_cases hk1 : k = index - 1
              · subst hk1
                rw [lookup_mapErase_self] at hk
                exact Option.noConfusion hk
              · rw [lookup_mapErase_ne _ _ _ hk1] at hk
                exact hstates k b0 st0 hk
            · exact hstates k b0 st0 hk
        cases h
        exact ⟨⟨hok, hci⟩, hsort, hchunks', hstates'⟩

/-- **C5**: every chunk returned by `get_chunk` — from any provider state
satisfying the provider invariant, which the call preserves — satisfies the
Chunk invariant: all items lie in `[k·L, (k+1)·L)` for the chunk's index `k`
and millisecond lifetime `L`, `base_state_index ≤ index`, the chunk is keyed
by its own index, and `glyph_ids` is the union of the glyph keys referenced
by the items. -/
theorem get_chunk_preserves_chunk_invariant (shaper : Shaper)
    (p : DanmakuTimeChunkProvider) (hint : Option ℕ) (index : ℕ)
    (c : DanmakuTimeChunk) (p' : DanmakuTimeChunkProvider)
    (hinv : ProviderInv p)
    (h : p.get_chunk shaper hint index = some (c, p')) :
    (ChunkOK p.lifetime c ∧ c.index = index) ∧ ProviderInv p' := by
  obtain ⟨hsort, hchunks, hstates⟩ := hinv
  rw [DanmakuTimeChunkProvider.get_chunk.eq_def] at h
  cases hc : List.lookup index p.chunks with
  | some c0 =>
    rw [hc] at h
    cases hint with
    | none =>
      dsimp only at h
      cases h
      exact ⟨⟨(hchunks _ _ hc).2, (hchunks _ _ hc).1⟩, hsort, hchunks, hstates⟩
    | some hnt =>
      dsimp only at h
      split at h
      · cases h
        exact ⟨⟨(hchunks _ _ hc).2, (hchunks _ _ hc).1⟩, hsort, hchunks, hstates⟩
      · exact regenerate_invariant shaper p index c p' hsort hchunks hstates h
  | none =>
    rw [hc] at h
    have hre : p.regenerate shaper index = some (c, p') := by
      cases hint with
      | none => exact h
      | some hnt => exact h
    exact regenerate_invariant shaper p index c p' hsort hchunks hstates hre

/-- Witness for `get_chunk_cache_and_state_reuse`: spec scenario D's first
request, `(None, 5)` on a fresh provider — the produced chunk has
`base_state_index = 5` and a state entry is stored at key 5. -/
theorem get_chunk_cache_and_state_reuse_witness :
    (∀ c', List.lookup 5 demoProvider.chunks = some c' →
      ∃ hnt, (none : Option ℕ) = some hnt ∧ c'.base_state_index ≠ hnt) ∧
    ((5 : ℕ) = 0 ∨ List.lookup (5 - 1) demoProvider.states = none) ∧
    demoProvider.get_chunk demoShaper none 5 =
      some (demoChunk 5 5, demoProviderAfter 5 5) ∧
    (demoChunk 5 5).base_state_index = 5 ∧
    ∃ st', List.lookup 5 (demoProviderAfter 5 5).states = some (5, st') := by
  have hmiss : ∀ c', List.lookup 5 demoProvider.chunks = some c' →
      ∃ hnt, (none : Option ℕ) = some hnt ∧ c'.base_state_index ≠ hnt := by
    intro c' hc'
    simp [demoProvider, List.lookup] at hc'
  have hz : (5 : ℕ) = 0 ∨ List.lookup (5 - 1) demoProvider.states = none :=
    Or.inr (by decide)
  have hget : demoProvider.get_chunk demoShaper none 5 =
      some (demoChunk 5 5, demoProviderAfter 5 5) := by decide
  have hres := (get_chunk_cache_and_state_reuse demoShaper demoProvider none 5).2.2
    (demoChunk 5 5) (demoProviderAfter 5 5) hmiss hz hget
  exact ⟨hmiss, hz, hget, hres.1, hres.2⟩

/-- **C6** (counterexample): on `demoProviderAfter 4 4` — a provider state
holding chunk 4 and its state entry `(4, state)` as produced by an earlier
`get_chunk(None, 4)` — two immediately repeated calls `get_chunk(Some 0, 5)`
return chunks of different content: the first consumes the stored entry and
bears `base_state_index = 4`; the second sees the newly cached chunk's base 4
differ from the hint 0, regenerates from a fresh state, and bears
`base_state_index = 5`. -/
theorem get_chunk_repeat_counterexample :
    (((demoProviderAfter 4 4).get_chunk demoShaper (some 0) 5).bind fun r1 =>
      (r1.2.get_chunk demoShaper (some 0) 5).map fun r2 =>
        (r1.1.base_state_index, r2.1.base_state_index, decide (r1.1 = r2.1)))
    = some (4, 5, false) := by
  decide

/-- Witness for `get_chunk_repeat_equal`: repeating `(None, 5)` returns the
same chunk and leaves the provider unchanged. -/
theorem get_chunk_repeat_equal_witness :
    ((none : Option ℕ) = none ∨
      (none : Option ℕ) = some (demoChunk 5 5).base_state_index) ∧
    demoProvider.get_chunk demoShaper none 5 =
      some (demoChunk 5 5, demoProviderAfter 5 5) ∧
    (demoProviderAfter 5 5).get_chunk demoShaper none 5 =
      some (demoChunk 5 5, demoProviderAfter 5 5) := by
  have hget : demoProvider.get_chunk demoShaper none 5 =
      some (demoChunk 5 5, demoProviderAfter 5 5) := by decide
  exact ⟨Or.inl rfl, hget,
    get_chunk_repeat_equal demoShaper demoProvider none 5 (demoChunk 5 5)
      (demoProviderAfter 5 5) hget (Or.inl rfl)⟩

/-- Witness for `get_chunk_preserves_chunk_invariant` on the fresh provider. -/
theorem get_chunk_preserves_chunk_invariant_witness :
    ProviderInv demoProvider ∧
    ((ChunkOK demoProvider.lifetime (demoChunk 5 5) ∧ (demoChunk 5 5).index = 5) ∧
      ProviderInv (demoProviderAfter 5 5)) := by
  have hinv : ProviderInv demoProvider := by
    refine ⟨?_, ?_, ?_⟩
    · simp [demoProvider, SortedByTime]
    · intro k c hk
      simp [demoProvider, List.lookup] at hk
    · intro k b st hk
      simp [demoProvider, List.lookup] at hk
  exact ⟨hinv, get_chunk_preserves_chunk_invariant demoShaper demoProvider none 5
    (demoChunk 5 5) (demoProviderAfter 5 5) hinv (by decide)⟩

/-- `from_code_cast` masks to the low 24 bits, i.e. reduces modulo `2^24`. -/
theorem from_code_cast_eq_mod (c : ℕ) :
    DanmakuColor.from_code_cast c = c % 2 ^ 24 := by
  have h := Nat.and_pow_two_sub_one_eq_mod c 24
  norm_num at h
  simpa [DanmakuColor.from_code_cast] using h

/-- Field indices past 3 hit the loop's `break`: the remaining fields are
ignored. -/
theorem parseFields_stops (rest : List (List Char)) (acc : ParsedAttributes) :
    parseFields rest 4 acc = some acc := by
  cases rest with
  | nil => rfl
  | cons f rs => rfl

/-- **C7**: for every well-formed `<d>` element (a `p` attribute with at least
four comma-separated fields that parse), the produced comment is: field 0
(decimal seconds, idealised as an exact rational) times 1000 cast to `u32`
(saturating truncation) as the time; field 1 mapping 1–3 to `Scroll`, 4 to
`Bottom`, 5 to `Top`, anything else to `Unknown`; field 2 mapping below 25 to
`Small`, exactly 25 to `Regular`, above 25 to `Large`; field 3 masked to its
low 24 bits as the color; with any fields beyond index 3 ignored. -/
theorem parse_danmaku_field_mapping (attributes text : String)
    (f0 f1 f2 f3 : List Char) (rest : List (List Char))
    (hsplit : splitComma attributes.data = f0 :: f1 :: f2 :: f3 :: rest)
    (q : ℚ) (m sz c : ℕ)
    (h0 : parseDecimal f0 = some q) (h1 : parseU32 f1 = some m)
    (h2 : parseU32 f2 = some sz) (h3 : parseU32 f3 = some c) :
    parseDanmakuElement attributes text =
      some ⟨f64AsU32 (q * 1000),
        if 1 ≤ m ∧ m ≤ 3 then .Scroll
          else if m = 4 then .Bottom else if m = 5 then .Top else .Unknown,
        if sz < 25 then .Small else if sz = 25 then .Regular else .Large,
        c % 2 ^ 24, text⟩ := by
  have hfields : parseFields (splitComma attributes.data) 0 ⟨none, none, none, none⟩ =
      some ⟨some (f64AsU32 (q * 1000)), some (modeToType m),
        some (fontSizeToSize sz), some (DanmakuColor.from_code_cast c)⟩ := by
    rw [hsplit]
    rw [parseFields]
    dsimp only
    rw [h0]
    simp only [Option.bind_eq_bind, Option.some_bind]
    rw [parseFields]
    dsimp only
    rw [h1]
    simp only [Option.bind_eq_bind, Option.some_bind]
    rw [parseFields]
    dsimp only
    rw [h2]
    simp only [Option.bind_eq_bind, Option.some_bind]
    rw [parseFields]
    dsimp only
    rw [h3]
    simp only [Option.bind_eq_bind, Option.some_bind]
    exact parseFields_stops rest _
  rw [parseDanmakuElement, hfields]
  simp only [Option.bind_eq_bind, Option.some_bind]
  rw [modeToType, fontSizeToSize, from_code_cast_eq_mod]
  rfl

/-- Witness for `parse_danmaku_field_mapping`: the attribute
`"12,1,25,16777215,junk"` (the trailing field is ignored). -/
theorem parse_danmaku_field_mapping_witness :
    splitComma ("12,1,25,16777215,junk" : String).data =
      ['1', '2'] :: ['1'] :: ['2', '5'] :: ['1', '6', '7', '7', '7', '2', '1', '5'] ::
        [['j', 'u', 'n', 'k']] ∧
    parseDanmakuElement "12,1,25,16777215,junk" "kksk" =
      some ⟨f64AsU32 ((12 : ℚ) * 1000), .Scroll, .Regular, 16777215 % 2 ^ 24,
        "kksk"⟩ := by
  have hsplit : splitComma ("12,1,25,16777215,junk" : String).data =
      ['1', '2'] :: ['1'] :: ['2', '5'] :: ['1', '6', '7', '7', '7', '2', '1', '5'] ::
        [['j', 'u', 'n', 'k']] := by decide
  have happ := parse_danmaku_field_mapping "12,1,25,16777215,junk" "kksk"
    ['1', '2'] ['1'] ['2', '5'] ['1', '6', '7', '7', '7', '2', '1', '5']
    [['j', 'u', 'n', 'k']] hsplit 12 1 25 16777215
    (by decide) (by decide) (by decide) (by decide)
  refine ⟨hsplit, ?_⟩
  rw [happ]
  norm_num

end DanmakuRenderer
